import Mathlib

/-!
Verification of the SEO-enrichment and content-normalization subsystem of the
Autoblog repository (src/seo_enhancer.py and src/content_generator.py).

Strings are modelled as lists of characters.  Character classes follow the
ASCII semantics of the Python regexes used by the source (the regex classes
backslash-w and backslash-s, str.lower, str.title); Unicode-specific behavior
(NFKD normalization, non-ASCII case mapping) is outside the character model,
so unicodedata.normalize NFKD is modelled as the identity map, which is its
value on ASCII text.
-/

namespace Autoblog

/-- Strings of the Python source, modelled as lists of characters. -/
abbrev Str := List Char

/-- Converts a Lean string literal into the character-list model. -/
def str (s : String) : Str := s.data

/-- The ASCII whitespace class of the Python regex class backslash-s:
space, tab, newline, vertical tab, form feed, carriage return. -/
def isPySpace (c : Char) : Bool := c.toNat == 32 || (9 ≤ c.toNat && c.toNat ≤ 13)

/-- ASCII uppercase letters. -/
def isUpperA (c : Char) : Bool := 65 ≤ c.toNat && c.toNat ≤ 90

/-- ASCII letters. -/
def isAlphaA (c : Char) : Bool :=
  (65 ≤ c.toNat && c.toNat ≤ 90) || (97 ≤ c.toNat && c.toNat ≤ 122)

/-- ASCII digits. -/
def isDigitA (c : Char) : Bool := 48 ≤ c.toNat && c.toNat ≤ 57

/-- The word-character class of the Python regex class backslash-w
(letters, digits, underscore), restricted to ASCII. -/
def isPyWord (c : Char) : Bool := isAlphaA c || isDigitA c || c.toNat == 95

/-- Python str.lower on a single character (ASCII case mapping). -/
def pyLower (c : Char) : Char :=
  if isUpperA c then Char.ofNat (c.toNat + 32) else c

/-- Python str.lower over a string. -/
def lowerStr (s : Str) : Str := s.map pyLower

/-- Python str.strip leading part: drop leading whitespace. -/
def stripLead (l : Str) : Str := l.dropWhile isPySpace

/-- Python str.strip trailing part: drop trailing whitespace. -/
def stripTail (l : Str) : Str := (l.reverse.dropWhile isPySpace).reverse

/-- Python str.strip with no arguments: remove leading and trailing whitespace. -/
def pyStrip (l : Str) : Str := stripTail (stripLead l)

/-- Characters kept by the first substitution of slugify: the complement of
the regex class that removes everything but word characters, whitespace and
hyphens. -/
def slugKeep (c : Char) : Bool := isPyWord c || isPySpace c || c.toNat == 45

/-- Characters matched by the regex class of hyphen-or-whitespace used by the
second substitution of slugify. -/
def isDashSpace (c : Char) : Bool := c.toNat == 45 || isPySpace c

/-- The scan of the second substitution of slugify: the flag records whether
the previous character belonged to a run of hyphens and whitespace, so each
maximal run emits a single hyphen. -/
def squashGo : Str → Bool → Str
  | [], _ => []
  | c :: cs, inRun =>
    if isDashSpace c then
      if inRun then squashGo cs true else '-' :: squashGo cs true
    else c :: squashGo cs false

/-- The second substitution of slugify: replace every maximal run of hyphens
and whitespace by a single hyphen. -/
def squashRuns (l : Str) : Str := squashGo l false

/-- unicodedata.normalize NFKD, modelled as the identity map: the embedding
restricts character semantics to ASCII, on which NFKD is the identity. -/
def nfkd (s : Str) : Str := s

/-- slugify from src/seo_enhancer.py: NFKD-normalize, remove every character
that is not a word character, whitespace or hyphen, strip, lowercase, then
replace every run of hyphens and whitespace by a single hyphen. -/
def slugify (text : Str) : Str :=
  squashRuns (lowerStr (pyStrip ((nfkd text).filter slugKeep)))

/-- Shape of slug characters: a lowercased word character or a hyphen. -/
def goodSlugChar (c : Char) : Bool := (isPyWord c && !isUpperA c) || c.toNat == 45

/-- No two adjacent characters are both in the hyphen-or-whitespace class. -/
def noDD : Str → Bool
  | [] => true
  | [_] => true
  | a :: b :: t => !(isDashSpace a && isDashSpace b) && noDD (b :: t)

/-- A record of the persisted posts index, holding the fields that
src/seo_enhancer.py reads from index entries via dict.get. -/
structure IndexRec where
  title : Option Str := none
  slug : Option Str := none
  category : Option Str := none
  excerpt : Option Str := none
  image : Option Str := none
deriving DecidableEq, Repr

/-- Decimal digit characters, matching Python f-string rendering of a digit. -/
def digitChar (d : Nat) : Char :=
  match d with
  | 0 => '0' | 1 => '1' | 2 => '2' | 3 => '3' | 4 => '4'
  | 5 => '5' | 6 => '6' | 7 => '7' | 8 => '8' | _ => '9'

/-- Numeric value of a digit character. -/
def digitVal (c : Char) : Nat := c.toNat - 48

/-- Decimal rendering with a structural fuel argument: the fuel bounds the
number of divisions by ten, and is always supplied large enough. -/
def natDigitsAux : Nat → Nat → Str
  | 0, _ => []
  | fuel + 1, n =>
    if n < 10 then [digitChar n]
    else natDigitsAux fuel (n / 10) ++ [digitChar (n % 10)]

/-- Decimal rendering of a natural number, matching the Python f-string
used to build collision-suffixed slug candidates. -/
def natDigits (n : Nat) : Str := natDigitsAux (n + 1) n

/-- Reads a decimal digit string back to the number it renders. -/
def decodeDigits (l : Str) : Nat := l.foldl (fun a c => 10 * a + digitVal c) 0

/-- The slug candidate inspected by the collision loop of ensure_unique_slug
at a given counter value: the desired slug itself at counter 1, and the
desired slug with a hyphen-number suffix afterwards. -/
def slugCandidate (desired : Str) (counter : Nat) : Str :=
  if counter ≤ 1 then desired else desired ++ '-' :: natDigits counter

/-- The while loop of ensure_unique_slug, with explicit fuel.  The caller
supplies fuel exceeding the number of stored slugs, which is always enough
for the loop to exit (theorem uniqueLoop_not_mem below with exists_fresh). -/
def uniqueLoop (existing : List Str) (desired : Str) : Nat → Nat → Str
  | counter, 0 => slugCandidate desired counter
  | counter, fuel + 1 =>
    if slugCandidate desired counter ∈ existing then
      uniqueLoop existing desired (counter + 1) fuel
    else slugCandidate desired counter

/-- The truthiness filter applied to index entries by ensure_unique_slug:
a stored slug contributes to the collision set only when present and
non-empty (Python: if p.get with the slug key). -/
def truthySlug (p : IndexRec) : Option Str :=
  match p.slug with
  | some s => if s = [] then none else some s
  | none => none

/-- The set of truthy slugs already stored in the index, as a list. -/
def truthySlugs (index : List IndexRec) : List Str := index.filterMap truthySlug

/-- ensure_unique_slug from src/seo_enhancer.py: starting from the desired
slug, append suffixes -2, -3, ... until the candidate is not among the
stored slugs. -/
def ensure_unique_slug (index : List IndexRec) (desired_slug : Str) : Str :=
  let existing := truthySlugs index
  uniqueLoop existing desired_slug 1 (existing.length + 1)

/-- The scan of re.findall for the word-character regex, carrying the
current run of word characters in reverse. -/
def findWordsGo : Str → Str → List Str
  | [], cur => if cur.isEmpty then [] else [cur.reverse]
  | c :: cs, cur =>
    if isPyWord c then findWordsGo cs (c :: cur)
    else if cur.isEmpty then findWordsGo cs [] else cur.reverse :: findWordsGo cs []

/-- re.findall of the word-character regex: the maximal runs of word
characters, in order. -/
def findWords (l : Str) : List Str := findWordsGo l []

/-- Python str.split on a single separator character, keeping empty parts. -/
def splitChar (sep : Char) : Str → List Str
  | [] => [[]]
  | c :: cs =>
    if c = sep then [] :: splitChar sep cs
    else
      match splitChar sep cs with
      | [] => [[c]]
      | w :: ws => (c :: w) :: ws

/-- The scan of the whitespace split, carrying the current run in reverse. -/
def splitWsGo : Str → Str → List Str
  | [], cur => if cur.isEmpty then [] else [cur.reverse]
  | c :: cs, cur =>
    if isPySpace c then
      if cur.isEmpty then splitWsGo cs [] else cur.reverse :: splitWsGo cs []
    else splitWsGo cs (c :: cur)

/-- Python str.split with no argument: split on whitespace runs, dropping
empty parts. -/
def splitWs (l : Str) : List Str := splitWsGo l []

/-- The whitespace normalization idiom of the source: join the whitespace
split with single spaces. -/
def wsJoin (l : Str) : Str := List.intercalate [' '] (splitWs l)

/-- The scan replacing every whitespace run by a single space, as in re.sub
of backslash-s-plus with a space; the flag records an in-progress run. -/
def collapseGo : Str → Bool → Str
  | [], _ => []
  | c :: cs, inRun =>
    if isPySpace c then
      if inRun then collapseGo cs true else ' ' :: collapseGo cs true
    else c :: collapseGo cs false

/-- The substitution replacing every whitespace run by a single space. -/
def collapseWs (l : Str) : Str := collapseGo l false

/-- Python str.rsplit on a space with maxsplit 1, first component: the string
up to its last space, or the whole string if it has no space. -/
def cutLastWord (l : Str) : Str :=
  if ' ' ∈ l then (((l.reverse).dropWhile (fun c => !(c == ' '))).drop 1).reverse
  else l

/-- First index at which the pattern occurs as a prefix of a suffix. -/
def findAt (pat : Str) : Str → Option Nat
  | [] => if pat.isEmpty then some 0 else none
  | c :: cs =>
    if pat.isPrefixOf (c :: cs) then some 0
    else (findAt pat cs).map (· + 1)

/-- Python str.find with a start argument: the absolute index of the first
occurrence of the pattern at or after the start position, if any. -/
def findFrom (l pat : Str) (start : Nat) : Option Nat :=
  (findAt pat (l.drop start)).map (· + start)

/-- Python substring membership: the needle occurs contiguously in the hay. -/
def containsSub : Str → Str → Bool
  | hay, needle =>
    match hay with
    | [] => needle.isEmpty
    | _ :: t => needle.isPrefixOf hay || containsSub t needle

/-- Python str.split on a colon, first component. -/
def takeBeforeColon (l : Str) : Str := l.takeWhile (fun c => !(c == ':'))

/-- Python str.upper on a single character (ASCII case mapping). -/
def pyUpperC (c : Char) : Char :=
  if 97 ≤ c.toNat && c.toNat ≤ 122 then Char.ofNat (c.toNat - 32) else c

/-- Python str.title, tracking whether the previous character was a letter. -/
def pyTitleGo : Bool → Str → Str
  | _, [] => []
  | prev, c :: cs =>
    if isAlphaA c then
      (if prev then pyLower c else pyUpperC c) :: pyTitleGo true cs
    else c :: pyTitleGo false cs

/-- Python str.title: letters opening a word are uppercased, other letters
lowercased, everything else unchanged. -/
def pyTitle (l : Str) : Str := pyTitleGo false l

/-- The organization name constant of src/seo_enhancer.py. -/
def ORG_NAME : Str := str "GlideX Outsourcing"

/-- The site URL constant of src/seo_enhancer.py. -/
def SITE_URL : Str := str "https://www.glidexoutsourcing.com"

/-- The Calendly URL constant of src/seo_enhancer.py. -/
def CALENDLY : Str := str "https://calendly.com/glide-xpp/30min"

/-- The default image folder constant of src/seo_enhancer.py. -/
def DEFAULT_IMAGE_FOLDER : Str := str "static/images"

/-- short_summary from src/seo_enhancer.py: collapse whitespace and strip;
return short text verbatim; otherwise cut at a sentence end found in the
second half of the budget, or cut at the last word boundary within the
budget and append an ellipsis. -/
def short_summary_core (t : Str) (max_len : Nat) : Str :=
  if t.isEmpty then []
  else if t.length ≤ max_len then t
  else
    match findFrom t (str ". ") (max_len / 2) with
    | some idx =>
      if idx < max_len then t.take (idx + 1)
      else cutLastWord (t.take max_len) ++ str "..."
    | none => cutLastWord (t.take max_len) ++ str "..."

/-- short_summary, applied to the whitespace-collapsed and stripped text. -/
def short_summary (text : Str) (max_len : Nat) : Str :=
  short_summary_core (pyStrip (collapseWs text)) max_len

/-- estimate_reading_time from src/seo_enhancer.py: word count divided by
200 words per minute, truncated, with a floor of one minute. -/
def estimate_reading_time (text : Str) : Nat :=
  max 1 ((findWords text).length / 200)

/-- generate_meta_title from src/seo_enhancer.py. -/
def generate_meta_title (title : Str) (keywords : List Str) (max_len : Nat) : Str :=
  let primary := match keywords with | k :: _ => k | [] => takeBeforeColon title
  let candidate := pyTitle primary ++ str " | " ++ ORG_NAME
  if max_len < candidate.length then
    let short := cutLastWord ((takeBeforeColon title).take (max_len - 4)) ++ str "..."
    short ++ str " | " ++ ORG_NAME
  else candidate

/-- Python str.replace of hyphens by spaces. -/
def replaceDash (s : Str) : Str := s.map (fun c => if c == '-' then ' ' else c)

/-- generate_meta_description from src/seo_enhancer.py. -/
def generate_meta_description (title content : Str) (keywords : List Str) : Str :=
  let primary := match keywords with | k :: _ => replaceDash k | [] => title
  let summary := short_summary (if content.isEmpty then title else content) 155
  if containsSub (lowerStr summary) (lowerStr primary) = false then
    pyTitle primary ++ str " — " ++ summary
  else summary

/-- Title-derived keyword terms: word tokens of the title longer than three
characters, lowercased, in title order. -/
def titleTerms (title : Str) : List Str :=
  (findWords title).filterMap (fun w => if 3 < w.length then some (lowerStr w) else none)

/-- Body tokens: word tokens of the lowercased body. -/
def bodyTokens (content : Str) : List Str := findWords (lowerStr content)

/-- One step of the Python dict-based frequency count: increment the count of
the token at its first (and only) occurrence, or append it with count one. -/
def bumpTok : List (Str × Nat) → Str → List (Str × Nat)
  | [], s => [(s, 1)]
  | (t, c) :: rest, s => if t = s then (t, c + 1) :: rest else (t, c) :: bumpTok rest s

/-- The loop body building the frequency dict: only tokens longer than three
characters are counted. -/
def freqStep (acc : List (Str × Nat)) (t : Str) : List (Str × Nat) :=
  if 3 < t.length then bumpTok acc t else acc

/-- The frequency dict of extract_keyword_candidates, as an association list
in key insertion order, i.e. first-occurrence order of the tokens. -/
def freqList (content : Str) : List (Str × Nat) := (bodyTokens content).foldl freqStep []

/-- The descending-count ordering used by the Python sorted call with the
negated-count key. -/
def byCountGE (x y : Str × Nat) : Prop := y.2 ≤ x.2

instance : DecidableRel byCountGE := fun x y => inferInstanceAs (Decidable (y.2 ≤ x.2))

instance : IsTotal (Str × Nat) byCountGE := ⟨fun a b => le_total b.2 a.2⟩

instance : IsTrans (Str × Nat) byCountGE := ⟨fun _ _ _ hab hbc => le_trans hbc hab⟩

/-- The sorted frequency items: Python sorted is a stable sort, modelled by
insertion sort with respect to the descending-count ordering. -/
def sortedFreq (content : Str) : List (Str × Nat) :=
  List.insertionSort byCountGE (freqList content)

/-- Adjacent-token bigrams of the body whose two halves both exceed three
characters. -/
def bigrams (content : Str) : List Str :=
  ((bodyTokens content).zip (bodyTokens content).tail).filterMap
    (fun p => if 3 < p.1.length ∧ 3 < p.2.length then some (p.1 ++ ' ' :: p.2) else none)

/-- The title loop of extract_keyword_candidates: append unseen title terms,
returning early (Sum.inl) as soon as the maximum is reached. -/
def titleLoop (mt : Nat) : List Str → List Str → Sum (List Str) (List Str)
  | [], kws => Sum.inr kws
  | t :: ts, kws =>
    let kws2 := if t ∈ kws then kws else kws ++ [t]
    if mt ≤ kws2.length then Sum.inl kws2 else titleLoop mt ts kws2

/-- The body loop of extract_keyword_candidates: append unseen sorted tokens,
breaking once the maximum is reached. -/
def bodyLoop (mt : Nat) : List (Str × Nat) → List Str → List Str
  | [], kws => kws
  | (tok, _) :: rest, kws =>
    let kws2 := if tok ∈ kws then kws else kws ++ [tok]
    if mt ≤ kws2.length then kws2 else bodyLoop mt rest kws2

/-- The bigram loop of extract_keyword_candidates: append unseen bigrams
while below the maximum. -/
def bigramLoop (mt : Nat) : List Str → List Str → List Str
  | [], kws => kws
  | bg :: rest, kws =>
    bigramLoop mt rest (if bg ∉ kws ∧ kws.length < mt then kws ++ [bg] else kws)

/-- extract_keyword_candidates from src/seo_enhancer.py. -/
def extract_keyword_candidates (title content : Str) (max_terms : Nat) : List Str :=
  match titleLoop max_terms (titleTerms title) [] with
  | Sum.inl kws => kws
  | Sum.inr kws =>
    let kws2 := bodyLoop max_terms (sortedFreq content) kws
    let kws3 := bigramLoop max_terms (bigrams content) kws2
    kws3.take max_terms

/-- Appends the elements of the second list that are not already present,
keeping first occurrences: the deduplicating accumulation shared by all
three phases of the keyword extractor. -/
def dedupAppend (kws : List Str) (ts : List Str) : List Str :=
  ts.foldl (fun acc t => if t ∈ acc then acc else acc ++ [t]) kws

/-- The body tokens longer than three characters, in order. -/
def longTokens (content : Str) : List Str :=
  (bodyTokens content).filter (fun t => decide (3 < t.length))

/-- Keyword list as described by the spec: title terms in title order, then
body tokens in descending frequency order with ties in first-occurrence
order, then bigrams, deduplicated and capped.  This is the spec-side
description compared against extract_keyword_candidates. -/
def keywordSpecList (title content : Str) (mt : Nat) : List Str :=
  (dedupAppend
    (dedupAppend (dedupAppend [] (titleTerms title)) ((sortedFreq content).map Prod.fst))
    (bigrams content)).take mt

/-- Output blocks of the text-to-blocks converter in
src/content_generator.py.  The _key fields of the source are derived from a
hash of the content together with the current time, so they are
nondeterministic across runs and are not part of the model; a text block
carries its style and the text of its single span child, a table block
carries its rows. -/
inductive PTBlock where
  | block (style : Str) (text : Str)
  | table (rows : List (List Str))
deriving DecidableEq, Repr

/-- Python str.strip with a pipe argument: remove leading and trailing
pipe characters. -/
def stripPipes (l : Str) : Str :=
  ((l.dropWhile (fun c => c == '|')).reverse.dropWhile (fun c => c == '|')).reverse

/-- Table-row cell extraction: strip surrounding pipes, split on interior
pipes, trim whitespace from each cell. -/
def rowCells (line : Str) : List Str := (splitChar '|' (stripPipes line)).map pyStrip

/-- Python str.replace of two asterisks by the empty string: a left-to-right
scan removing each non-overlapping pair. -/
def removeBoldMarks : Str → Str
  | [] => []
  | '*' :: '*' :: rest => removeBoldMarks rest
  | c :: rest => c :: removeBoldMarks rest

/-- The text cleaning of the converter: replace em-dashes by hyphens, remove
bold and italic markers, collapse whitespace runs to single spaces. -/
def cleanText (l : Str) : Str :=
  wsJoin ((removeBoldMarks (l.map (fun c => if c == '—' then '-' else c))).filter
    (fun c => !(c == '*')))

/-- The numbered-heading test of the converter: at least one digit, a dot,
then whitespace. -/
def isNumberedHeading (l : Str) : Bool :=
  !(l.takeWhile isDigitA).isEmpty &&
    match l.dropWhile isDigitA with
    | c1 :: c2 :: _ => c1 == '.' && isPySpace c2
    | _ => false

/-- Style classification and block construction for a cleaned text line:
numbered headings become level-2 headings with the number prefix retained,
double-hash lines become level-2 headings with the prefix stripped,
single-hash lines become level-1 headings, everything else a paragraph. -/
def textBlock (cleaned : Str) : PTBlock :=
  if isNumberedHeading cleaned then PTBlock.block (str "h2") cleaned
  else
    match cleaned with
    | '#' :: '#' :: ' ' :: rest => PTBlock.block (str "h2") (pyStrip rest)
    | '#' :: ' ' :: rest => PTBlock.block (str "h1") (pyStrip rest)
    | _ => PTBlock.block (str "normal") cleaned

/-- Emits the accumulated table rows as a single table block, if any. -/
def flushTable (rows : List (List Str)) : List PTBlock :=
  if rows.isEmpty then [] else [PTBlock.table rows]

/-- The per-line loop of markdown_to_portable_text, carrying the accumulated
table rows: blank lines are skipped, pipe lines accumulate table rows, any
other line first flushes the pending table and then emits a text block. -/
def mdLoop : List Str → List (List Str) → List PTBlock
  | [], table_rows => flushTable table_rows
  | line :: rest, table_rows =>
    let l := pyStrip line
    if l.isEmpty then mdLoop rest table_rows
    else if '|' ∈ l then mdLoop rest (table_rows ++ [rowCells l])
    else flushTable table_rows ++ (textBlock (cleanText l) :: mdLoop rest [])

/-- markdown_to_portable_text from src/content_generator.py. -/
def markdown_to_portable_text (text : Str) : List PTBlock :=
  mdLoop (splitChar '\n' text) []

/-- Python exception outcomes relevant to the modelled functions. -/
inductive PyError where
  | valueError (msg : Str)
  | osError
deriving DecidableEq, Repr

/-- Observable states of the persisted index file, classifying the behavior
of the os.path.exists, open and json.load library calls made by load_index:
the file may be missing; opening or reading it may raise an OS-level error
(e.g. a permission failure), which the source does not catch; its contents
may fail JSON decoding, which the source catches; or decoding may succeed
with a list of records. -/
inductive IndexFileState where
  | missing
  | readError
  | decodeError
  | parsed (records : List IndexRec)
deriving DecidableEq, Repr

/-- load_index from src/seo_enhancer.py: a missing file yields the empty
index, a JSON decode failure is swallowed and yields the empty index, a
read failure propagates as a raised OS error, and a successful parse yields
the parsed records. -/
def load_index (st : IndexFileState) : Except PyError (List IndexRec) :=
  match st with
  | IndexFileState.missing => Except.ok []
  | IndexFileState.readError => Except.error PyError.osError
  | IndexFileState.decodeError => Except.ok []
  | IndexFileState.parsed records => Except.ok records

/-- The AUTHOR configuration dict of src/seo_enhancer.py. -/
structure Author where
  name : Option Str := none
  title : Option Str := none
  linkedin : Option Str := none
  email : Option Str := none
deriving DecidableEq, Repr

/-- The AUTHOR constant of src/seo_enhancer.py. -/
def AUTHOR : Author :=
  { name := some (str "Joseph Henry"),
    title := some (str "Founder, GlideX Outsourcing"),
    linkedin := some
      (str "https://www.linkedin.com/in/joseph-henry-280b4b121?trk=public-profile-join-page"),
    email := some (str "jhenry@glidexoutsourcing.com") }

/-- A question-answer pair of the FAQ list. -/
structure Faq where
  q : Str
  a : Str
deriving DecidableEq, Repr

/-- A table-of-contents entry. -/
structure TocEntry where
  level : Nat
  text : Str
  id : Str
deriving DecidableEq, Repr

/-- A related-post summary produced by choose_internal_links. -/
structure RelatedRec where
  title : Str
  slug : Str
  excerpt : Str
  image : Option Str
deriving DecidableEq, Repr

/-- An entry of the list produced by rename_and_alt_images. -/
structure ImageMeta where
  path : Str
  alt : Str
  caption : Option Str
deriving DecidableEq, Repr

/-- The post dict flowing through enhance_post, with one optional field per
dict key that the source reads or writes; an absent key and a key set to
None are both modelled as none. -/
structure PostMeta where
  title : Option Str := none
  slug : Option Str := none
  content : Option Str := none
  date : Option Str := none
  dateModified : Option Str := none
  excerpt : Option Str := none
  category : Option Str := none
  images : Option (List Str) := none
  keywords : Option (List Str) := none
  meta_title : Option Str := none
  meta_description : Option Str := none
  canonical_url : Option Str := none
  reading_time : Option Nat := none
  author_name : Option Str := none
  author_link : Option Str := none
  image : Option Str := none
  image_alt : Option Str := none
  image_caption : Option (Option Str) := none
  related_posts : Option (List RelatedRec) := none
  faqs : Option (List Faq) := none
  calendly_cta : Option Str := none
  toc : Option (List TocEntry) := none
deriving DecidableEq, Repr

/-- Python truthiness of an optional string: present and non-empty. -/
def truthyS (o : Option Str) : Bool :=
  match o with
  | none => false
  | some s => !s.isEmpty

/-- The scan of re.sub replacing whitespace runs by single hyphens, used for
image file names. -/
def dashRunsGo : Str → Bool → Str
  | [], _ => []
  | c :: cs, inRun =>
    if isPySpace c then
      if inRun then dashRunsGo cs true else '-' :: dashRunsGo cs true
    else c :: dashRunsGo cs false

/-- re.sub replacing every whitespace run by a single hyphen. -/
def wsRunsToDash (kw : Str) : Str := dashRunsGo kw false

/-- The part of a path after its last slash. -/
def afterLastSlash (p : Str) : Str := (p.reverse.takeWhile (fun c => !(c == '/'))).reverse

/-- The extension component of os.path.splitext: the suffix from the last
dot of the base name, provided some earlier character of the base name is
not a dot. -/
def splitextExt (p : Str) : Str :=
  let base := afterLastSlash p
  let e := base.reverse.takeWhile (fun c => !(c == '.'))
  if e.length = base.length then []
  else
    let stem := base.take (base.length - e.length - 1)
    if stem.any (fun c => !(c == '.')) then '.' :: e.reverse else []

/-- rename_and_alt_images from src/seo_enhancer.py.  The outcome of the
filesystem calls (os.path.exists and os.replace, together with any raised
exception) is supplied by the renameOk parameter: it holds exactly when the
source file exists and the on-disk move succeeds; otherwise the original
path is kept, and a failure never aborts the call. -/
def rename_and_alt_images (renameOk : Str → Str → Bool) (images : List Str)
    (keywords : List Str) : List ImageMeta :=
  let primary := match keywords with
    | [] => str "glidex-image"
    | _ => List.intercalate ['-'] ((keywords.take 2).map wsRunsToDash)
  images.enum.map (fun p =>
    let img_path := p.2
    let ext0 := splitextExt img_path
    let ext := if ext0.isEmpty then str ".png" else ext0
    let new_name := primary ++ '-' :: natDigits (p.1 + 1) ++ ext
    let new_path := DEFAULT_IMAGE_FOLDER ++ '/' :: new_name
    let path := if !(img_path == new_path) && renameOk img_path new_path
      then new_path else img_path
    let alt := match keywords with
      | [] => str "GlideX Outsourcing image"
      | k :: _ => pyTitle (replaceDash k) ++ str " image"
    { path := path, alt := alt, caption := none })

/-- generate_faqs from src/seo_enhancer.py: exactly three template entries
parameterized by the primary keyword. -/
def generate_faqs (title : Str) (keywords : List Str) : List Faq :=
  let primary := match keywords with
    | k :: _ => replaceDash k
    | [] => takeBeforeColon title
  [ { q := str "What does " ++ primary ++ str " mean for my business?",
      a := pyTitle primary ++ str " helps reduce admin load and improve efficiency." },
    { q := str "Are these services compliant and secure?",
      a := str "GlideX follows strict data protocols and compliance standards." },
    { q := str "How quickly can we onboard a VA unit?",
      a := str "Typical onboarding is 1–3 weeks depending on role complexity and training needs." } ]

/-- choose_internal_links from src/seo_enhancer.py.  The sample parameter
models random.sample on a population and a count; the source always passes
a count bounded by the population size. -/
def choose_internal_links (sample : List IndexRec → Nat → List IndexRec)
    (index : List IndexRec) (current_slug : Str) (max_links : Nat) : List RelatedRec :=
  let current_cat : Option Str :=
    match index.find? (fun x => x.slug == some current_slug) with
    | some x => x.category
    | none => none
  let same_cat := index.filter
    (fun p => p.category == current_cat && !(p.slug == some current_slug))
  let picks := if same_cat.isEmpty then [] else sample same_cat (min same_cat.length max_links)
  let picks :=
    if picks.length < max_links then
      let others := index.filter
        (fun p => !(p.slug == some current_slug) && !(picks.contains p))
      if others.isEmpty then picks
      else picks ++ sample others (min (max_links - picks.length) others.length)
    else picks
  picks.map (fun p =>
    { title := p.title.getD [], slug := p.slug.getD [],
      excerpt := (p.excerpt.getD []).take 140, image := p.image })

/-- The line test of extract_headings_for_toc: two to four hashes followed
by whitespace; yields the level, stripped text and slug-derived anchor. -/
def tocEntryOfLine (line : Str) : Option TocEntry :=
  let n := (line.takeWhile (fun c => c == '#')).length
  if 2 ≤ n ∧ n ≤ 4 then
    match line.drop n with
    | c :: rest =>
      if isPySpace c then
        let text := pyStrip (c :: rest)
        some { level := n, text := text, id := (slugify text).take 60 }
      else none
    | [] => none
  else none

/-- extract_headings_for_toc from src/seo_enhancer.py. -/
def extract_headings_for_toc (content : Str) : List TocEntry :=
  if content.isEmpty then [] else (splitChar '\n' content).filterMap tocEntryOfLine

/-- The author object of the Article structured data. -/
structure PersonLD where
  name : Str
  sameAs : Option Str
deriving DecidableEq, Repr

/-- The Article structured-data object of build_article_jsonld, with one
field per JSON key the source writes. -/
structure ArticleLD where
  mainEntityOfPage : Str
  headline : Str
  datePublished : Str
  dateModified : Str
  author : PersonLD
  publisherName : Str
  publisherUrl : Str
  description : Str
  image : Option Str
  timeRequired : Option Str
deriving DecidableEq, Repr

/-- build_article_jsonld from src/seo_enhancer.py. -/
def build_article_jsonld (post_meta : PostMeta) (author : Author) : ArticleLD :=
  let url := post_meta.canonical_url.getD
    (SITE_URL ++ str "/blog/" ++ post_meta.slug.getD [])
  { mainEntityOfPage := url
    headline := post_meta.title.getD []
    datePublished := post_meta.date.getD []
    dateModified := post_meta.dateModified.getD (post_meta.date.getD [])
    author := { name := author.name.getD [], sameAs := author.linkedin }
    publisherName := ORG_NAME
    publisherUrl := SITE_URL
    description := (post_meta.meta_description.getD []).take 300
    image := match post_meta.image with
      | some img =>
        if !img.isEmpty then
          some (if (str "http").isPrefixOf img then img
            else SITE_URL ++ '/' :: img.dropWhile (fun c => c == '/'))
        else none
      | none => none
    timeRequired := match post_meta.reading_time with
      | some rt => if rt ≠ 0 then some (str "PT" ++ natDigits rt ++ str "M") else none
      | none => none }

/-- The FAQPage structured-data object: always well-formed, with the main
entity list empty when there are no FAQs. -/
structure FAQPageLD where
  mainEntity : List Faq
deriving DecidableEq, Repr

/-- build_faq_jsonld from src/seo_enhancer.py. -/
def build_faq_jsonld (faqs : List Faq) : FAQPageLD := { mainEntity := faqs }

/-- The BreadcrumbList structured-data object: home, blog, post. -/
structure BreadcrumbLD where
  homeUrl : Str
  blogUrl : Str
  postName : Str
  postUrl : Str
deriving DecidableEq, Repr

/-- build_breadcrumb_jsonld from src/seo_enhancer.py. -/
def build_breadcrumb_jsonld (post_meta : PostMeta) : BreadcrumbLD :=
  { homeUrl := SITE_URL, blogUrl := SITE_URL ++ str "/blog",
    postName := post_meta.title.getD [],
    postUrl := post_meta.canonical_url.getD
      (SITE_URL ++ str "/blog/" ++ post_meta.slug.getD []) }

/-- The Organization structured-data object. -/
structure OrganizationLD where
  name : Str
  url : Str
  logo : Str
deriving DecidableEq, Repr

/-- build_organization_jsonld from src/seo_enhancer.py. -/
def build_organization_jsonld : OrganizationLD :=
  { name := ORG_NAME, url := SITE_URL, logo := SITE_URL ++ str "/logo.png" }

/-- The four structured-data objects assembled by enhance_post. -/
structure JsonLd where
  article : ArticleLD
  faq : FAQPageLD
  breadcrumb : BreadcrumbLD
  organization : OrganizationLD
deriving DecidableEq, Repr

/-- External effects consumed by enhance_post: the current date read from
the clock, the random.sample choice function, and the filesystem outcome of
image renames. -/
structure EnhanceEnv where
  today : Str
  sample : List IndexRec → Nat → List IndexRec
  renameOk : Str → Str → Bool

/-- The dict returned by enhance_post.  The meta_html and jsonld_html
fields of the source are plain serializations of the meta dict and of the
jsonld objects through the json library and are not modelled. -/
structure EnhanceResult where
  meta : PostMeta
  jsonld : JsonLd
  internal_links : List RelatedRec
  images : List ImageMeta
  toc : List TocEntry

/-- enhance_post from src/seo_enhancer.py, modelled statement by statement:
it works on a copy of the input post dict, derives a collision-free slug,
fills defaulted fields, extracts keywords, generates meta fields, image
metadata, related links, FAQs, structured data and the table of contents,
and returns the enriched result; a missing or empty title raises a
ValueError. -/
def enhance_post (env : EnhanceEnv) (post : PostMeta) (index : List IndexRec)
    (author : Author) : Except PyError EnhanceResult :=
  let post_meta := post
  if !truthyS post_meta.title then
    Except.error (PyError.valueError (str "Post must include a title."))
  else
    let post_meta :=
      if !truthyS post_meta.slug then
        { post_meta with
          slug := some (ensure_unique_slug index (slugify (post_meta.title.getD []))) }
      else
        { post_meta with
          slug := some (ensure_unique_slug index (slugify (post_meta.slug.getD []))) }
    let post_meta :=
      if !truthyS post_meta.date then { post_meta with date := some env.today } else post_meta
    let post_meta :=
      if !truthyS post_meta.excerpt then
        { post_meta with excerpt := some (short_summary (post_meta.content.getD []) 140) }
      else post_meta
    let keywords := extract_keyword_candidates (post_meta.title.getD [])
      (post_meta.content.getD []) 6
    let post_meta := { post_meta with keywords := some keywords }
    let post_meta := { post_meta with
      meta_title := some (generate_meta_title (post_meta.title.getD []) keywords 60) }
    let post_meta := { post_meta with
      meta_description := some (generate_meta_description (post_meta.title.getD [])
        (post_meta.content.getD []) keywords) }
    let post_meta := { post_meta with
      canonical_url := some (SITE_URL ++ str "/blog/" ++ post_meta.slug.getD []) }
    let post_meta := { post_meta with
      reading_time := some (estimate_reading_time (post_meta.content.getD [])) }
    let post_meta := { post_meta with
      author_name := author.name, author_link := author.linkedin }
    let images_meta := rename_and_alt_images env.renameOk (post_meta.images.getD []) keywords
    let post_meta :=
      { post_meta with
          image := match images_meta with
            | im0 :: _ => some im0.path
            | [] => post_meta.image
          image_alt := match images_meta with
            | im0 :: _ => some im0.alt
            | [] => post_meta.image_alt
          image_caption := match images_meta with
            | im0 :: _ => some im0.caption
            | [] => post_meta.image_caption }
    let related := choose_internal_links env.sample index (post_meta.slug.getD []) 3
    let faqs := generate_faqs (post_meta.title.getD []) keywords
    let article_ld := build_article_jsonld post_meta author
    let faq_ld := build_faq_jsonld faqs
    let breadcrumb_ld := build_breadcrumb_jsonld post_meta
    let organization_ld := build_organization_jsonld
    let toc := extract_headings_for_toc (post_meta.content.getD [])
    let post_meta :=
      { post_meta with
          related_posts := some related
          faqs := some faqs
          calendly_cta := some CALENDLY
          toc := some toc }
    Except.ok
      { meta := post_meta
        jsonld :=
          { article := article_ld
            faq := faq_ld
            breadcrumb := breadcrumb_ld
            organization := organization_ld }
        internal_links := related
        images := images_meta
        toc := toc }

/-- The slug of the enriched metadata, or none when enrichment raised. -/
def resultSlug (e : Except PyError EnhanceResult) : Option Str :=
  match e with
  | Except.ok r => r.meta.slug
  | Except.error _ => none

/-- A fixed environment for concrete runs: a fixed date, random.sample
taking the first elements, and filesystem renames succeeding. -/
def envFix : EnhanceEnv :=
  { today := str "2026-10-12", sample := fun l n => l.take n, renameOk := fun _ _ => true }

/-- A 300-word body used by the end-to-end scenario. -/
def c3content : Str := List.intercalate [' '] (List.replicate 300 (str "aid"))

/-- The input post of the end-to-end scenario: the given title, no slug, a
300-word body, the given category, no images. -/
def c3post : PostMeta :=
  { title := some (str "How Voice AI Handles Support"), content := some c3content,
    category := some (str "voice-automation-ai"), images := some [] }

/-- Heap objects: the Python dict and list objects referenced by
enhance_post. -/
inductive HObj where
  | postObj (p : PostMeta)
  | indexObj (l : List IndexRec)

/-- A heap of Python objects: an allocation counter and a memory mapping
addresses to objects.  Addresses below the counter are the allocated ones. -/
structure Heap where
  next : Nat
  mem : Nat → Option HObj

/-- Writes an object at an address. -/
def hset (h : Heap) (a : Nat) (o : HObj) : Heap :=
  { next := h.next, mem := fun b => if b = a then some o else h.mem b }

/-- Allocates a fresh object at the next address, as Python dict.copy
does. -/
def halloc (h : Heap) (o : HObj) : Heap × Nat :=
  ({ next := h.next + 1, mem := fun b => if b = h.next then some o else h.mem b }, h.next)

/-- Reads the post dict at an address, defaulting when the address does not
hold a post dict. -/
def getPost (h : Heap) (a : Nat) : PostMeta :=
  match h.mem a with
  | some (HObj.postObj p) => p
  | _ => {}

/-- Reads the index list at an address, defaulting when the address does
not hold an index list. -/
def getIndex (h : Heap) (a : Nat) : List IndexRec :=
  match h.mem a with
  | some (HObj.indexObj l) => l
  | _ => []

/-- One Python subscript assignment on the post dict at an address. -/
def updPost (h : Heap) (a : Nat) (f : PostMeta → PostMeta) : Heap :=
  hset h a (HObj.postObj (f (getPost h a)))

/-- enhance_post over the explicit object heap, with one heap write per
Python statement that assigns into a dict: the input post dict is read and
copied into a freshly allocated object, every subsequent subscript
assignment targets the copy, and the index list object is only read.  This
is the model used for the frame property of claim C9. -/
def enhance_post_st (env : EnhanceEnv) (author : Author) (h0 : Heap) (pA iA : Nat) :
    Except PyError EnhanceResult × Heap :=
  let index := getIndex h0 iA
  let ha := halloc h0 (HObj.postObj (getPost h0 pA))
  let h := ha.1
  let mA := ha.2
  if !truthyS (getPost h mA).title then
    (Except.error (PyError.valueError (str "Post must include a title.")), h)
  else
    let h := updPost h mA (fun m =>
      if !truthyS m.slug then
        { m with slug := some (ensure_unique_slug index (slugify (m.title.getD []))) }
      else
        { m with slug := some (ensure_unique_slug index (slugify (m.slug.getD []))) })
    let h := updPost h mA (fun m =>
      if !truthyS m.date then { m with date := some env.today } else m)
    let h := updPost h mA (fun m =>
      if !truthyS m.excerpt then
        { m with excerpt := some (short_summary (m.content.getD []) 140) }
      else m)
    let keywords := extract_keyword_candidates ((getPost h mA).title.getD [])
      ((getPost h mA).content.getD []) 6
    let h := updPost h mA (fun m => { m with keywords := some keywords })
    let h := updPost h mA (fun m =>
      { m with meta_title := some (generate_meta_title (m.title.getD []) keywords 60) })
    let h := updPost h mA (fun m =>
      { m with meta_description := some (generate_meta_description (m.title.getD [])
        (m.content.getD []) keywords) })
    let h := updPost h mA (fun m =>
      { m with canonical_url := some (SITE_URL ++ str "/blog/" ++ m.slug.getD []) })
    let h := updPost h mA (fun m =>
      { m with reading_time := some (estimate_reading_time (m.content.getD [])) })
    let h := updPost h mA (fun m =>
      { m with author_name := author.name, author_link := author.linkedin })
    let images_meta := rename_and_alt_images env.renameOk
      ((getPost h mA).images.getD []) keywords
    let h := updPost h mA (fun m =>
      { m with image := match images_meta with | im0 :: _ => some im0.path | [] => m.image })
    let h := updPost h mA (fun m =>
      { m with image_alt := match images_meta with
          | im0 :: _ => some im0.alt | [] => m.image_alt })
    let h := updPost h mA (fun m =>
      { m with image_caption := match images_meta with
          | im0 :: _ => some im0.caption | [] => m.image_caption })
    let related := choose_internal_links env.sample index ((getPost h mA).slug.getD []) 3
    let faqs := generate_faqs ((getPost h mA).title.getD []) keywords
    let article_ld := build_article_jsonld (getPost h mA) author
    let faq_ld := build_faq_jsonld faqs
    let breadcrumb_ld := build_breadcrumb_jsonld (getPost h mA)
    let organization_ld := build_organization_jsonld
    let toc := extract_headings_for_toc ((getPost h mA).content.getD [])
    let h := updPost h mA (fun m =>
      { m with
          related_posts := some related
          faqs := some faqs
          calendly_cta := some CALENDLY
          toc := some toc })
    (Except.ok
      { meta := getPost h mA
        jsonld :=
          { article := article_ld
            faq := faq_ld
            breadcrumb := breadcrumb_ld
            organization := organization_ld }
        internal_links := related
        images := images_meta
        toc := toc }, h)

/-- A two-object heap used to instantiate the frame property. -/
def heap2 : Heap :=
  { next := 2,
    mem := fun a =>
      if a = 0 then some (HObj.postObj { title := some (str "How Voice AI Handles Support") })
      else if a = 1 then some (HObj.indexObj []) else none }

/-- The code point of a character built with Char.ofNat is the given number,
for numbers below the surrogate range. -/
theorem toNat_charOfNat (n : Nat) (h : n < 55296) : (Char.ofNat n).toNat = n := by
  simp [Char.ofNat, Nat.isValidChar, h, Char.ofNatAux, Char.toNat, UInt32.toNat]

/-- Characters with equal code points are equal. -/
theorem char_eq_of_toNat (a b : Char) (h : a.toNat = b.toNat) : a = b := by
  have ha := Char.ofNat_toNat a
  have hb := Char.ofNat_toNat b
  rw [← ha, ← hb, h]

theorem isUpperA_iff (c : Char) : isUpperA c = true ↔ (65 ≤ c.toNat ∧ c.toNat ≤ 90) := by
  simp [isUpperA]

theorem isPyWord_iff (c : Char) : isPyWord c = true ↔
    ((65 ≤ c.toNat ∧ c.toNat ≤ 90) ∨ (97 ≤ c.toNat ∧ c.toNat ≤ 122) ∨
     (48 ≤ c.toNat ∧ c.toNat ≤ 57) ∨ c.toNat = 95) := by
  simp [isPyWord, isAlphaA, isDigitA, or_assoc]

theorem isPySpace_iff (c : Char) : isPySpace c = true ↔
    (c.toNat = 32 ∨ (9 ≤ c.toNat ∧ c.toNat ≤ 13)) := by
  simp [isPySpace]

theorem pyLower_toNat (c : Char) :
    (pyLower c).toNat = if isUpperA c then c.toNat + 32 else c.toNat := by
  unfold pyLower
  split
  case isTrue h =>
    have hlt : c.toNat + 32 < 55296 := by
      rw [isUpperA_iff] at h
      omega
    simp [toNat_charOfNat _ hlt]
  case isFalse h => simp

theorem isUpperA_pyLower (c : Char) : isUpperA (pyLower c) = false := by
  have h := pyLower_toNat c
  rw [Bool.eq_false_iff]
  intro hc
  rw [isUpperA_iff, h] at hc
  by_cases hu : isUpperA c = true
  · rw [if_pos hu] at hc
    have := (isUpperA_iff c).1 hu
    omega
  · rw [Bool.not_eq_true] at hu
    rw [if_neg (by simp [hu])] at hc
    have hr : ¬ (65 ≤ c.toNat ∧ c.toNat ≤ 90) := by
      intro hx
      rw [← isUpperA_iff] at hx
      simp [hu] at hx
    omega

theorem pyLower_fix_of_not_upper (c : Char) (h : isUpperA c = false) : pyLower c = c := by
  unfold pyLower; simp [h]

theorem pyLower_pyLower (c : Char) : pyLower (pyLower c) = pyLower c :=
  pyLower_fix_of_not_upper _ (isUpperA_pyLower c)

theorem isPyWord_pyLower (c : Char) : isPyWord (pyLower c) = isPyWord c := by
  have h := pyLower_toNat c
  rw [Bool.eq_iff_iff, isPyWord_iff, isPyWord_iff, h]
  by_cases hu : isUpperA c = true
  · have hr := (isUpperA_iff c).1 hu
    rw [if_pos hu]
    omega
  · rw [Bool.not_eq_true] at hu
    rw [if_neg (by simp [hu])]

theorem isPySpace_pyLower (c : Char) : isPySpace (pyLower c) = isPySpace c := by
  have h := pyLower_toNat c
  rw [Bool.eq_iff_iff, isPySpace_iff, isPySpace_iff, h]
  by_cases hu : isUpperA c = true
  · have hr := (isUpperA_iff c).1 hu
    rw [if_pos hu]
    omega
  · rw [Bool.not_eq_true] at hu
    rw [if_neg (by simp [hu])]

theorem goodSlugChar_not_space (c : Char) (h : goodSlugChar c = true) :
    isPySpace c = false := by
  rw [Bool.eq_false_iff]
  intro hs
  rw [isPySpace_iff] at hs
  simp only [goodSlugChar, Bool.or_eq_true, Bool.and_eq_true, beq_iff_eq] at h
  rcases h with ⟨hw, _⟩ | h45
  · rw [isPyWord_iff] at hw
    omega
  · omega

theorem goodSlugChar_not_upper (c : Char) (h : goodSlugChar c = true) :
    isUpperA c = false := by
  simp only [goodSlugChar, Bool.or_eq_true, Bool.and_eq_true, beq_iff_eq,
    Bool.not_eq_true'] at h
  rcases h with ⟨_, hu⟩ | h45
  · exact hu
  · rw [Bool.eq_false_iff]
    intro hu
    rw [isUpperA_iff] at hu
    omega

theorem goodSlugChar_keep (c : Char) (h : goodSlugChar c = true) :
    slugKeep c = true := by
  simp only [goodSlugChar, Bool.or_eq_true, Bool.and_eq_true, beq_iff_eq] at h
  simp only [slugKeep, Bool.or_eq_true, beq_iff_eq]
  rcases h with ⟨hw, _⟩ | h45
  · left; left; exact hw
  · right; exact h45

theorem dropWhile_eq_self_of_none (p : Char → Bool) (l : Str)
    (h : ∀ c ∈ l, p c = false) : l.dropWhile p = l := by
  cases l with
  | nil => rfl
  | cons c cs =>
    rw [List.dropWhile_cons]
    simp [h c (by simp)]

theorem map_eq_self_of_fix (f : Char → Char) (l : Str)
    (h : ∀ c ∈ l, f c = c) : l.map f = l := by
  induction l with
  | nil => rfl
  | cons c cs ih =>
    simp only [List.map_cons]
    rw [h c (by simp), ih (fun d hd => h d (by simp [hd]))]

theorem mem_pyStrip (l : Str) (c : Char) (h : c ∈ pyStrip l) : c ∈ l := by
  unfold pyStrip stripTail stripLead at h
  rw [List.mem_reverse] at h
  have h2 := (List.dropWhile_sublist (l := (l.dropWhile isPySpace).reverse) isPySpace).mem h
  rw [List.mem_reverse] at h2
  exact (List.dropWhile_sublist (l := l) isPySpace).mem h2

theorem head_dropWhile_false (p : Char → Bool) :
    ∀ (l : Str) (d : Char) (ds : Str), l.dropWhile p = d :: ds → p d = false := by
  intro l
  induction l with
  | nil => intro d ds h; simp at h
  | cons c cs ih =>
    intro d ds h
    rw [List.dropWhile_cons] at h
    by_cases hc : p c = true
    · rw [if_pos hc] at h
      exact ih d ds h
    · rw [Bool.not_eq_true] at hc
      rw [if_neg (by simp [hc])] at h
      cases h
      exact hc

theorem mem_squashGo (c : Char) :
    ∀ (l : Str) (b : Bool), c ∈ squashGo l b → c = '-' ∨ (c ∈ l ∧ isDashSpace c = false) := by
  intro l
  induction l with
  | nil => intro b h; simp [squashGo] at h
  | cons d ds ih =>
    intro b h
    rw [squashGo] at h
    by_cases hd : isDashSpace d = true
    · rw [if_pos hd] at h
      cases b with
      | true =>
        simp only [if_true] at h
        rcases ih true h with h1 | ⟨h2, h3⟩
        · left; exact h1
        · right; exact ⟨List.mem_cons_of_mem _ h2, h3⟩
      | false =>
        simp only [Bool.false_eq_true, if_false] at h
        rcases List.mem_cons.1 h with h1 | h2
        · left; exact h1
        · rcases ih true h2 with h1 | ⟨h3, h4⟩
          · left; exact h1
          · right; exact ⟨List.mem_cons_of_mem _ h3, h4⟩
    · rw [Bool.not_eq_true] at hd
      rw [if_neg (by simp [hd])] at h
      rcases List.mem_cons.1 h with h1 | h2
      · right
        subst h1
        exact ⟨by simp, hd⟩
      · rcases ih false h2 with h1 | ⟨h3, h4⟩
        · left; exact h1
        · right; exact ⟨List.mem_cons_of_mem _ h3, h4⟩

theorem head_squashGo_true :
    ∀ (l : Str) (c : Char) (cs : Str), squashGo l true = c :: cs → isDashSpace c = false := by
  intro l
  induction l with
  | nil => intro c cs h; simp [squashGo] at h
  | cons d ds ih =>
    intro c cs h
    rw [squashGo] at h
    by_cases hd : isDashSpace d = true
    · rw [if_pos hd] at h
      simp only [if_true] at h
      exact ih c cs h
    · rw [Bool.not_eq_true] at hd
      rw [if_neg (by simp [hd])] at h
      cases h
      exact hd

theorem squashGo_noDD : ∀ (l : Str) (b : Bool), noDD (squashGo l b) = true := by
  intro l
  induction l with
  | nil => intro b; rfl
  | cons d ds ih =>
    intro b
    rw [squashGo]
    by_cases hd : isDashSpace d = true
    · rw [if_pos hd]
      cases b with
      | true => simpa using ih true
      | false =>
        simp only [Bool.false_eq_true, if_false]
        cases hx : squashGo ds true with
        | nil => rfl
        | cons e es =>
          have he := head_squashGo_true ds e es hx
          have hn := ih true
          rw [hx] at hn
          rw [noDD]
          simp [he, hn]
    · rw [Bool.not_eq_true] at hd
      rw [if_neg (by simp [hd])]
      cases hx : squashGo ds false with
      | nil => rfl
      | cons e es =>
        have hn := ih false
        rw [hx] at hn
        rw [noDD]
        simp [hd, hn]

theorem noDD_tail (a : Char) (t : Str) (h : noDD (a :: t) = true) : noDD t = true := by
  cases t with
  | nil => rfl
  | cons b t2 =>
    rw [noDD] at h
    exact ((Bool.and_eq_true _ _).symm ▸ h).2

theorem squashGo_fix :
    ∀ (l : Str), (∀ c ∈ l, isPySpace c = false) → noDD l = true →
      squashGo l false = l ∧
      (∀ c cs, l = c :: cs → isDashSpace c = false → squashGo l true = l) := by
  intro l
  induction l with
  | nil => exact fun _ _ => ⟨rfl, fun c cs h => by cases h⟩
  | cons d ds ih =>
    intro hns hdd
    have hns2 : ∀ c ∈ ds, isPySpace c = false := fun c hc => hns c (List.mem_cons_of_mem _ hc)
    have hdd2 : noDD ds = true := noDD_tail d ds hdd
    rcases ih hns2 hdd2 with ⟨ihf, iht⟩
    by_cases hd : isDashSpace d = true
    · have hd45 : d = '-' := by
        apply char_eq_of_toNat
        have hs := hns d (by simp)
        simp only [isDashSpace, Bool.or_eq_true, beq_iff_eq] at hd
        rcases hd with h45 | hsp
        · exact h45
        · rw [hsp] at hs; exact Bool.noConfusion hs
      constructor
      · rw [squashGo, if_pos hd]
        simp only [Bool.false_eq_true, if_false]
        rw [← hd45]
        congr 1
        cases hds : ds with
        | nil => rfl
        | cons e es =>
          have he : isDashSpace e = false := by
            rw [hds] at hdd
            rw [noDD] at hdd
            have h1 := ((Bool.and_eq_true _ _).symm ▸ hdd).1
            simp only [Bool.not_eq_eq_eq_not, Bool.not_true, Bool.and_eq_false_iff] at h1
            rcases h1 with h1 | h1
            · rw [h1] at hd; exact Bool.noConfusion hd
            · exact h1
          rw [← hds]
          rw [hds] at iht ⊢
          exact iht e es rfl he
      · intro c cs hc hcd
        cases hc
        rw [hcd] at hd
        exact Bool.noConfusion hd
    · rw [Bool.not_eq_true] at hd
      constructor
      · rw [squashGo, if_neg (by simp [hd])]
        rw [ihf]
      · intro c cs hc _
        cases hc
        rw [squashGo, if_neg (by simp [hd])]
        rw [ihf]

theorem slugify_chars (s : Str) (c : Char) (h : c ∈ slugify s) :
    goodSlugChar c = true := by
  unfold slugify squashRuns at h
  rcases mem_squashGo c _ false h with h1 | ⟨h2, h3⟩
  · subst h1; decide
  · unfold lowerStr at h2
    rcases List.mem_map.1 h2 with ⟨d, hd, hcd⟩
    have hkeep : slugKeep d = true := by
      have hdm := mem_pyStrip _ _ hd
      exact List.of_mem_filter hdm
    simp only [slugKeep, Bool.or_eq_true, beq_iff_eq] at hkeep
    have h3s : ((c.toNat == 45) || isPySpace c) = false := by
      simpa [isDashSpace] using h3
    rcases Bool.or_eq_false_iff.1 h3s with ⟨h45f, hnsp⟩
    rcases hkeep with (hw | hsp) | h45
    · subst hcd
      simp only [goodSlugChar, Bool.or_eq_true, Bool.and_eq_true, Bool.not_eq_true']
      left
      exact ⟨by rw [isPyWord_pyLower]; exact hw, isUpperA_pyLower d⟩
    · exfalso
      have hcs : isPySpace c = true := by
        subst hcd; rw [isPySpace_pyLower]; exact hsp
      rw [hcs] at hnsp
      exact Bool.noConfusion hnsp
    · exfalso
      have hfix : pyLower d = d := by
        apply pyLower_fix_of_not_upper
        rw [Bool.eq_false_iff]
        intro hu
        rw [isUpperA_iff] at hu
        omega
      rw [hfix] at hcd
      subst hcd
      rw [Bool.eq_false_iff] at h45f
      exact h45f (beq_iff_eq.2 h45)

theorem slugify_fixed (s : Str) : slugify (slugify s) = slugify s := by
  have hgood := slugify_chars s
  have h1 : (nfkd (slugify s)).filter slugKeep = slugify s := by
    apply List.filter_eq_self.2
    intro c hc
    exact goodSlugChar_keep c (hgood c hc)
  have hnos : ∀ c ∈ slugify s, isPySpace c = false := by
    intro c hc
    exact goodSlugChar_not_space c (hgood c hc)
  have h2 : pyStrip (slugify s) = slugify s := by
    unfold pyStrip stripTail stripLead
    rw [dropWhile_eq_self_of_none _ _ hnos]
    rw [dropWhile_eq_self_of_none _ _ (fun c hc => hnos c (List.mem_reverse.1 hc))]
    exact List.reverse_reverse _
  have h3 : lowerStr (slugify s) = slugify s := by
    apply map_eq_self_of_fix
    intro c hc
    exact pyLower_fix_of_not_upper c (goodSlugChar_not_upper c (hgood c hc))
  show squashRuns (lowerStr (pyStrip ((nfkd (slugify s)).filter slugKeep))) = slugify s
  rw [h1, h2, h3]
  have hdd : noDD (slugify s) = true := squashGo_noDD _ false
  exact (squashGo_fix (slugify s) hnos hdd).1

theorem digitVal_digitChar (d : Nat) (h : d < 10) : digitVal (digitChar d) = d := by
  interval_cases d <;> rfl

theorem natDigits_ne_nil (n : Nat) : natDigits n ≠ [] := by
  rw [natDigits, natDigitsAux]
  split <;> simp

theorem decodeDigits_natDigitsAux :
    ∀ (fuel n : Nat), n < 10 ^ fuel → decodeDigits (natDigitsAux fuel n) = n := by
  intro fuel
  induction fuel with
  | zero =>
    intro n h
    simp only [pow_zero, Nat.lt_one_iff] at h
    subst h
    rfl
  | succ f ih =>
    intro n h
    rw [natDigitsAux]
    by_cases h10 : n < 10
    · rw [if_pos h10]
      simp [decodeDigits, digitVal_digitChar n h10]
    · rw [if_neg h10]
      have hdiv : n / 10 < 10 ^ f := by
        rw [Nat.div_lt_iff_lt_mul (by omega)]
        rw [pow_succ] at h
        exact h
      have := ih (n / 10) hdiv
      unfold decodeDigits at this ⊢
      rw [List.foldl_append, this]
      simp only [List.foldl_cons, List.foldl_nil]
      rw [digitVal_digitChar _ (Nat.mod_lt n (by omega))]
      omega

theorem decodeDigits_natDigits (n : Nat) : decodeDigits (natDigits n) = n := by
  apply decodeDigits_natDigitsAux
  calc n < 10 ^ n := Nat.lt_pow_self (by omega) n
    _ ≤ 10 ^ (n + 1) := Nat.pow_le_pow_right (by omega) (by omega)

theorem natDigits_inj (m n : Nat) (h : natDigits m = natDigits n) : m = n := by
  have hm := decodeDigits_natDigits m
  have hn := decodeDigits_natDigits n
  rw [← hm, ← hn, h]

theorem slugCandidate_inj (d : Str) (m n : Nat) (hm : 1 ≤ m) (hn : 1 ≤ n)
    (h : slugCandidate d m = slugCandidate d n) : m = n := by
  unfold slugCandidate at h
  by_cases h1 : m ≤ 1 <;> by_cases h2 : n ≤ 1
  · omega
  · rw [if_pos h1, if_neg h2] at h
    have := congrArg List.length h
    simp only [List.length_append, List.length_cons] at this
    omega
  · rw [if_neg h1, if_pos h2] at h
    have := congrArg List.length h
    simp only [List.length_append, List.length_cons] at this
    omega
  · rw [if_neg h1, if_neg h2] at h
    have h3 := List.append_cancel_left h
    have h4 : natDigits m = natDigits n := by
      injection h3
    exact natDigits_inj _ _ h4

theorem uniqueLoop_not_mem (existing : List Str) (desired : Str) :
    ∀ (fuel counter : Nat),
      (∃ k, k ≤ fuel ∧ slugCandidate desired (counter + k) ∉ existing) →
      uniqueLoop existing desired counter fuel ∉ existing := by
  intro fuel
  induction fuel with
  | zero =>
    rintro counter ⟨k, hk, hnm⟩
    have hk0 : k = 0 := by omega
    subst hk0
    simpa [uniqueLoop] using hnm
  | succ f ih =>
    rintro counter ⟨k, hk, hnm⟩
    by_cases hc : slugCandidate desired counter ∈ existing
    · rw [uniqueLoop, if_pos hc]
      apply ih
      have hk0 : k ≠ 0 := by
        rintro rfl
        simp only [Nat.add_zero] at hnm
        exact hnm hc
      refine ⟨k - 1, by omega, ?_⟩
      have harith : counter + 1 + (k - 1) = counter + k := by omega
      rw [harith]
      exact hnm
    · rw [uniqueLoop, if_neg hc]
      exact hc

theorem exists_fresh (existing : List Str) (desired : Str) :
    ∃ k, k ≤ existing.length ∧ slugCandidate desired (1 + k) ∉ existing := by
  by_contra hcon
  push_neg at hcon
  have hinj : Function.Injective
      (fun i : Fin (existing.length + 1) => slugCandidate desired (1 + i.val)) := by
    intro i j hij
    have := slugCandidate_inj desired (1 + i.val) (1 + j.val) (by omega) (by omega) hij
    exact Fin.ext (by omega)
  have hsub : (Finset.univ.image
      (fun i : Fin (existing.length + 1) => slugCandidate desired (1 + i.val))) ⊆
      existing.toFinset := by
    intro x hx
    rcases Finset.mem_image.1 hx with ⟨i, _, rfl⟩
    exact List.mem_toFinset.2 (hcon i.val (Nat.lt_succ_iff.1 i.isLt))
  have h1 := Finset.card_le_card hsub
  rw [Finset.card_image_of_injective _ hinj, Finset.card_univ, Fintype.card_fin] at h1
  have h2 := List.toFinset_card_le existing
  omega

theorem ensure_unique_slug_fresh (index : List IndexRec) (d : Str) :
    ensure_unique_slug index d ∉ truthySlugs index := by
  unfold ensure_unique_slug
  apply uniqueLoop_not_mem
  rcases exists_fresh (truthySlugs index) d with ⟨k, hk, hnm⟩
  exact ⟨k, by omega, hnm⟩

theorem uniqueLoop_shape (existing : List Str) (d : Str) :
    ∀ (fuel counter : Nat), ∃ m, uniqueLoop existing d counter fuel = slugCandidate d m := by
  intro fuel
  induction fuel with
  | zero => intro counter; exact ⟨counter, rfl⟩
  | succ f ih =>
    intro counter
    by_cases hc : slugCandidate d counter ∈ existing
    · rw [uniqueLoop, if_pos hc]
      exact ih (counter + 1)
    · rw [uniqueLoop, if_neg hc]
      exact ⟨counter, rfl⟩

theorem digitChar_good (k : Nat) : goodSlugChar (digitChar k) = true := by
  unfold digitChar
  split <;> decide

theorem natDigitsAux_chars :
    ∀ (fuel n : Nat) (c : Char), c ∈ natDigitsAux fuel n → goodSlugChar c = true := by
  intro fuel
  induction fuel with
  | zero => intro n c h; simp [natDigitsAux] at h
  | succ f ih =>
    intro n c h
    rw [natDigitsAux] at h
    split at h
    · rcases List.mem_singleton.1 h with rfl
      exact digitChar_good n
    · rcases List.mem_append.1 h with h1 | h2
      · exact ih _ c h1
      · rcases List.mem_singleton.1 h2 with rfl
        exact digitChar_good _

theorem natDigits_chars (n : Nat) (c : Char) (h : c ∈ natDigits n) :
    goodSlugChar c = true :=
  natDigitsAux_chars (n + 1) n c h

theorem ensure_unique_slug_chars (index : List IndexRec) (d : Str)
    (hd : ∀ c ∈ d, goodSlugChar c = true) :
    ∀ c ∈ ensure_unique_slug index d, goodSlugChar c = true := by
  intro c hc
  unfold ensure_unique_slug at hc
  change c ∈ uniqueLoop (truthySlugs index) d 1 ((truthySlugs index).length + 1) at hc
  rcases uniqueLoop_shape (truthySlugs index) d ((truthySlugs index).length + 1) 1 with ⟨m, hm⟩
  rw [hm] at hc
  unfold slugCandidate at hc
  split at hc
  · exact hd c hc
  · rcases List.mem_append.1 hc with h1 | h2
    · exact hd c h1
    · rcases List.mem_cons.1 h2 with rfl | h3
      · decide
      · exact natDigits_chars m c h3

theorem length_cutLastWord_le (l : Str) : (cutLastWord l).length ≤ l.length := by
  unfold cutLastWord
  split
  · rw [List.length_reverse]
    have h1 := (List.dropWhile_sublist (l := l.reverse) (fun c => !(c == ' '))).length_le
    rw [List.length_reverse] at h1
    have h2 := List.length_drop 1 ((l.reverse).dropWhile (fun c => !(c == ' ')))
    omega
  · exact le_refl _

theorem short_summary_core_length (t : Str) (max_len : Nat) :
    (short_summary_core t max_len).length ≤ max_len + 3 := by
  unfold short_summary_core
  split
  · simp
  · split
    case isTrue h => omega
    case isFalse h =>
      split
      case h_1 idx heq =>
        split
        case isTrue hlt =>
          have := List.length_take_le (idx + 1) t
          omega
        case isFalse hge =>
          rw [List.length_append]
          have h1 := length_cutLastWord_le (t.take max_len)
          have h2 := List.length_take_le max_len t
          have h3 : (str "...").length = 3 := rfl
          omega
      case h_2 =>
        rw [List.length_append]
        have h1 := length_cutLastWord_le (t.take max_len)
        have h2 := List.length_take_le max_len t
        have h3 : (str "...").length = 3 := rfl
        omega

theorem short_summary_length (text : Str) (max_len : Nat) :
    (short_summary text max_len).length ≤ max_len + 3 :=
  short_summary_core_length _ _

theorem length_pyTitleGo (b : Bool) (l : Str) : (pyTitleGo b l).length = l.length := by
  induction l generalizing b with
  | nil => rfl
  | cons c cs ih =>
    unfold pyTitleGo
    split <;> simp [ih]

theorem length_pyTitle (l : Str) : (pyTitle l).length = l.length :=
  length_pyTitleGo false l

theorem dedupAppend_nil (kws : List Str) : dedupAppend kws [] = kws := rfl

theorem dedupAppend_cons (kws : List Str) (t : Str) (ts : List Str) :
    dedupAppend kws (t :: ts) = dedupAppend (if t ∈ kws then kws else kws ++ [t]) ts := rfl

theorem dedupAppend_append (kws : List Str) (l1 l2 : List Str) :
    dedupAppend kws (l1 ++ l2) = dedupAppend (dedupAppend kws l1) l2 :=
  List.foldl_append _ _ _ _

theorem dedupAppend_extends : ∀ (ts kws : List Str), ∃ e, dedupAppend kws ts = kws ++ e := by
  intro ts
  induction ts with
  | nil => exact fun kws => ⟨[], by simp [dedupAppend_nil]⟩
  | cons t ts ih =>
    intro kws
    rw [dedupAppend_cons]
    by_cases hm : t ∈ kws
    · rw [if_pos hm]
      exact ih kws
    · rw [if_neg hm]
      rcases ih (kws ++ [t]) with ⟨e, he⟩
      exact ⟨[t] ++ e, by rw [he, List.append_assoc]⟩

theorem nodup_dedupAppend : ∀ (ts kws : List Str), kws.Nodup → (dedupAppend kws ts).Nodup := by
  intro ts
  induction ts with
  | nil => exact fun kws h => h
  | cons t ts ih =>
    intro kws h
    rw [dedupAppend_cons]
    by_cases hm : t ∈ kws
    · rw [if_pos hm]; exact ih kws h
    · rw [if_neg hm]
      apply ih
      rw [List.nodup_append]
      refine ⟨h, List.nodup_singleton t, ?_⟩
      intro a ha hat
      rcases List.mem_singleton.1 hat with rfl
      exact hm ha

theorem mem_dedupAppend : ∀ (ts kws : List Str) (a : Str),
    a ∈ dedupAppend kws ts ↔ a ∈ kws ∨ a ∈ ts := by
  intro ts
  induction ts with
  | nil => intro kws a; simp [dedupAppend_nil]
  | cons t ts ih =>
    intro kws a
    rw [dedupAppend_cons]
    by_cases hm : t ∈ kws
    · rw [if_pos hm, ih]
      constructor
      · rintro (h | h)
        · left; exact h
        · right; exact List.mem_cons_of_mem _ h
      · rintro (h | h)
        · left; exact h
        · rcases List.mem_cons.1 h with rfl | h2
          · left; exact hm
          · right; exact h2
    · rw [if_neg hm, ih]
      simp only [List.mem_append, List.mem_singleton, List.mem_cons]
      tauto

theorem titleLoop_spec (mt : Nat) : ∀ (ts kws : List Str), kws.length < mt →
    (match titleLoop mt ts kws with
     | Sum.inl r => r = (dedupAppend kws ts).take mt ∧ r.length = mt
     | Sum.inr r => r = dedupAppend kws ts ∧ r.length < mt) := by
  intro ts
  induction ts with
  | nil =>
    intro kws h
    simp only [titleLoop]
    exact ⟨(dedupAppend_nil kws).symm, h⟩
  | cons t ts ih =>
    intro kws h
    simp only [titleLoop]
    by_cases hm : mt ≤ (if t ∈ kws then kws else kws ++ [t]).length
    · rw [if_pos hm]
      have hlen : (if t ∈ kws then kws else kws ++ [t]).length = mt := by
        by_cases ht : t ∈ kws
        · rw [if_pos ht] at hm ⊢; omega
        · rw [if_neg ht] at hm ⊢
          rw [List.length_append]
          rw [List.length_append] at hm
          simp only [List.length_singleton] at hm ⊢
          omega
      refine ⟨?_, hlen⟩
      rw [dedupAppend_cons]
      rcases dedupAppend_extends ts (if t ∈ kws then kws else kws ++ [t]) with ⟨e, he⟩
      rw [he, List.take_append_of_le_length (by omega), List.take_of_length_le (by omega)]
    · rw [if_neg hm]
      rw [dedupAppend_cons]
      exact ih _ (by omega)

theorem bodyLoop_spec (mt : Nat) : ∀ (toks : List (Str × Nat)) (kws : List Str),
    kws.length < mt →
    bodyLoop mt toks kws = (dedupAppend kws (toks.map Prod.fst)).take mt := by
  intro toks
  induction toks with
  | nil =>
    intro kws h
    simp only [bodyLoop, List.map_nil, dedupAppend_nil]
    rw [List.take_of_length_le (by omega)]
  | cons p toks ih =>
    rcases p with ⟨tok, cnt⟩
    intro kws h
    simp only [bodyLoop, List.map_cons]
    rw [dedupAppend_cons]
    by_cases hm : mt ≤ (if tok ∈ kws then kws else kws ++ [tok]).length
    · rw [if_pos hm]
      have hlen : (if tok ∈ kws then kws else kws ++ [tok]).length = mt := by
        by_cases ht : tok ∈ kws
        · rw [if_pos ht] at hm ⊢; omega
        · rw [if_neg ht] at hm ⊢
          rw [List.length_append] at hm ⊢
          simp only [List.length_singleton] at hm ⊢
          omega
      rcases dedupAppend_extends (toks.map Prod.fst) (if tok ∈ kws then kws else kws ++ [tok])
        with ⟨e, he⟩
      rw [he, List.take_append_of_le_length (by omega), List.take_of_length_le (by omega)]
    · rw [if_neg hm]
      exact ih _ (by omega)

theorem bigramLoop_const (mt : Nat) : ∀ (bgs kws : List Str),
    mt ≤ kws.length → bigramLoop mt bgs kws = kws := by
  intro bgs
  induction bgs with
  | nil => intro kws _; rfl
  | cons bg bgs ih =>
    intro kws h
    simp only [bigramLoop]
    rw [if_neg (by omega)]
    exact ih kws h

theorem bigramLoop_spec (mt : Nat) : ∀ (bgs kws : List Str), kws.length ≤ mt →
    bigramLoop mt bgs kws = (dedupAppend kws bgs).take mt := by
  intro bgs
  induction bgs with
  | nil =>
    intro kws h
    simp only [bigramLoop, dedupAppend_nil]
    rw [List.take_of_length_le h]
  | cons bg bgs ih =>
    intro kws h
    simp only [bigramLoop]
    rw [dedupAppend_cons]
    by_cases hbg : bg ∈ kws
    · rw [if_neg (by simp [hbg]), if_pos hbg]
      exact ih kws h
    · by_cases hlt : kws.length < mt
      · rw [if_pos ⟨hbg, hlt⟩, if_neg hbg]
        apply ih
        rw [List.length_append]
        simp only [List.length_singleton]
        omega
      · rw [if_neg (by tauto), if_neg hbg]
        have hlen : kws.length = mt := by omega
        rw [bigramLoop_const mt bgs kws (by omega)]
        rcases dedupAppend_extends bgs (kws ++ [bg]) with ⟨e, he⟩
        rw [he, List.append_assoc]
        rw [List.take_append_of_le_length (by omega), List.take_of_length_le (by omega)]

theorem extract_keyword_candidates_eq_spec (title content : Str) (mt : Nat) (hmt : 0 < mt) :
    extract_keyword_candidates title content mt = keywordSpecList title content mt := by
  unfold extract_keyword_candidates keywordSpecList
  have h0 : ([] : List Str).length < mt := by simpa using hmt
  have ht := titleLoop_spec mt (titleTerms title) [] h0
  cases heq : titleLoop mt (titleTerms title) [] with
  | inl r =>
    rw [heq] at ht
    rcases ht with ⟨hr, hrlen⟩
    have hA1 : mt ≤ (dedupAppend [] (titleTerms title)).length := by
      by_contra hcon
      rw [List.take_of_length_le (by omega)] at hr
      rw [hr] at hrlen
      omega
    rcases dedupAppend_extends ((sortedFreq content).map Prod.fst)
      (dedupAppend [] (titleTerms title)) with ⟨e1, he1⟩
    rcases dedupAppend_extends (bigrams content)
      (dedupAppend (dedupAppend [] (titleTerms title)) ((sortedFreq content).map Prod.fst))
      with ⟨e2, he2⟩
    rw [he2, he1, List.append_assoc]
    rw [List.take_append_of_le_length hA1]
    rw [hr]
  | inr r =>
    rw [heq] at ht
    rcases ht with ⟨hr, hrlen⟩
    subst hr
    dsimp only
    rw [bodyLoop_spec mt (sortedFreq content) _ hrlen]
    have htake : ((dedupAppend (dedupAppend [] (titleTerms title))
        ((sortedFreq content).map Prod.fst)).take mt).length ≤ mt := by
      have := List.length_take_le mt (dedupAppend (dedupAppend [] (titleTerms title))
        ((sortedFreq content).map Prod.fst))
      omega
    rw [bigramLoop_spec mt (bigrams content) _ htake]
    rw [List.take_take, min_self]
    by_cases hA2 : (dedupAppend (dedupAppend [] (titleTerms title))
        ((sortedFreq content).map Prod.fst)).length ≤ mt
    · rw [List.take_of_length_le hA2]
    · have hlen : ((dedupAppend (dedupAppend [] (titleTerms title))
          ((sortedFreq content).map Prod.fst)).take mt).length = mt := by
        rw [List.length_take]
        omega
      rcases dedupAppend_extends (bigrams content)
        ((dedupAppend (dedupAppend [] (titleTerms title))
          ((sortedFreq content).map Prod.fst)).take mt) with ⟨e1, he1⟩
      rcases dedupAppend_extends (bigrams content)
        (dedupAppend (dedupAppend [] (titleTerms title))
          ((sortedFreq content).map Prod.fst)) with ⟨e2, he2⟩
      rw [he1, he2]
      rw [List.take_append_of_le_length (by omega), List.take_of_length_le (by omega)]
      rw [List.take_append_of_le_length (by omega)]

theorem bumpTok_notmem : ∀ (acc : List (Str × Nat)) (t : Str),
    t ∉ acc.map Prod.fst → bumpTok acc t = acc ++ [(t, 1)] := by
  intro acc
  induction acc with
  | nil => intro t _; rfl
  | cons q rest ih =>
    rcases q with ⟨s, c⟩
    intro t ht
    simp only [List.map_cons, List.mem_cons] at ht
    push_neg at ht
    rw [bumpTok, if_neg (fun h => ht.1 h.symm)]
    rw [ih t ht.2]
    rfl

theorem bumpTok_map_mem (f : Str → Nat) (t : Str) :
    ∀ (D : List Str), t ∈ D → D.Nodup →
    bumpTok (D.map (fun u => (u, f u))) t =
      D.map (fun u => (u, if u = t then f u + 1 else f u)) := by
  intro D
  induction D with
  | nil => intro h; simp at h
  | cons d D ih =>
    intro hmem hnd
    rcases List.nodup_cons.1 hnd with ⟨hd, hnd2⟩
    simp only [List.map_cons]
    by_cases hdt : d = t
    · subst hdt
      rw [bumpTok, if_pos rfl]
      simp only [if_pos rfl]
      congr 1
      apply List.map_congr_left
      intro u hu
      have hne : u ≠ d := fun h => hd (h ▸ hu)
      rw [if_neg hne]
    · rw [bumpTok, if_neg hdt]
      rw [if_neg hdt]
      congr 1
      have hmem2 : t ∈ D := by
        rcases List.mem_cons.1 hmem with h | h
        · exact absurd h.symm hdt
        · exact h
      exact ih hmem2 hnd2

theorem freqFold_spec : ∀ (toks : List Str) (pre : List Str),
    toks.foldl freqStep ((dedupAppend [] pre).map (fun u => (u, List.count u pre))) =
      (dedupAppend [] (pre ++ toks.filter (fun u => decide (3 < u.length)))).map
        (fun u => (u, List.count u (pre ++ toks.filter (fun u => decide (3 < u.length))))) := by
  intro toks
  induction toks with
  | nil => intro pre; simp
  | cons t toks ih =>
    intro pre
    rw [List.foldl_cons]
    by_cases hl : 3 < t.length
    · have hstep : freqStep ((dedupAppend [] pre).map (fun u => (u, List.count u pre))) t =
          (dedupAppend [] (pre ++ [t])).map (fun u => (u, List.count u (pre ++ [t]))) := by
        rw [freqStep, if_pos hl]
        rw [dedupAppend_append]
        by_cases hmem : t ∈ dedupAppend [] pre
        · have htp : t ∈ pre := by
            rcases (mem_dedupAppend pre [] t).1 hmem with h | h
            · simp at h
            · exact h
          rw [dedupAppend_cons, if_pos hmem, dedupAppend_nil]
          rw [bumpTok_map_mem (fun u => List.count u pre) t _ hmem
            (nodup_dedupAppend pre [] List.nodup_nil)]
          apply List.map_congr_left
          intro u hu
          rw [List.count_append]
          by_cases hut : u = t
          · subst hut
            rw [if_pos rfl]
            simp
          · rw [if_neg hut]
            have h0 : List.count u [t] = 0 := by
              rw [List.count_eq_zero]
              simp [hut]
            rw [h0]
            simp
        · rw [dedupAppend_cons, if_neg hmem, dedupAppend_nil]
          rw [bumpTok_notmem _ t (by
            intro hconta
            apply hmem
            rw [List.map_map] at hconta
            simpa using hconta)]
          rw [List.map_append]
          congr 1
          · apply List.map_congr_left
            intro u hu
            rw [List.count_append]
            have hut : u ≠ t := fun h => hmem (h ▸ hu)
            have h0 : List.count u [t] = 0 := by
              rw [List.count_eq_zero]
              simp [hut]
            rw [h0]
            simp
          · have htp : t ∉ pre := by
              intro hc
              exact hmem ((mem_dedupAppend pre [] t).2 (Or.inr hc))
            simp only [List.map_cons, List.map_nil]
            rw [List.count_append]
            have h0 : List.count t pre = 0 := List.count_eq_zero.2 htp
            rw [h0]
            simp
      rw [hstep]
      have hfe : (t :: toks).filter (fun u => decide (3 < u.length)) =
          t :: toks.filter (fun u => decide (3 < u.length)) := by
        rw [List.filter_cons]
        simp [hl]
      rw [hfe]
      have hih := ih (pre ++ [t])
      rw [List.append_assoc] at hih
      simpa using hih
    · rw [freqStep, if_neg hl]
      have hfe : (t :: toks).filter (fun u => decide (3 < u.length)) =
          toks.filter (fun u => decide (3 < u.length)) := by
        rw [List.filter_cons]
        simp [hl]
      rw [hfe]
      exact ih pre

theorem freqList_eq (content : Str) :
    freqList content = (dedupAppend [] (longTokens content)).map
      (fun u => (u, List.count u (longTokens content))) := by
  have h := freqFold_spec (bodyTokens content) []
  simp only [List.count_nil, dedupAppend_nil, List.map_nil, List.nil_append] at h
  exact h

theorem filter_orderedInsert (n : Nat) (a : Str × Nat) : ∀ (l : List (Str × Nat)),
    (List.orderedInsert byCountGE a l).filter (fun p => p.2 == n) =
      if a.2 = n then a :: l.filter (fun p => p.2 == n)
      else l.filter (fun p => p.2 == n) := by
  intro l
  induction l with
  | nil =>
    by_cases ha : a.2 = n
    · have hba : (a.2 == n) = true := by simpa using ha
      simp [List.orderedInsert, List.filter_cons, ha, hba]
    · have hba : (a.2 == n) = false := by simpa using ha
      simp [List.orderedInsert, List.filter_cons, ha, hba]
  | cons y ys ih =>
    simp only [List.orderedInsert]
    by_cases hr : byCountGE a y
    · rw [if_pos hr]
      rw [List.filter_cons]
      by_cases ha : a.2 = n
      · have hba : (a.2 == n) = true := by simpa using ha
        rw [if_pos ha, if_pos hba]
      · have hba : ¬ ((a.2 == n) = true) := by simpa using ha
        rw [if_neg ha, if_neg hba]
    · rw [if_neg hr]
      rw [List.filter_cons]
      have hgt : ¬ (y.2 ≤ a.2) := hr
      by_cases ha : a.2 = n
      · have hy : ¬ ((y.2 == n) = true) := by
          simp only [beq_iff_eq]
          omega
        rw [if_neg hy, ih, if_pos ha, if_pos ha, List.filter_cons, if_neg hy]
      · rw [ih, if_neg ha, if_neg ha, List.filter_cons]

theorem filter_insertionSort (n : Nat) : ∀ (l : List (Str × Nat)),
    (List.insertionSort byCountGE l).filter (fun p => p.2 == n) =
      l.filter (fun p => p.2 == n) := by
  intro l
  induction l with
  | nil => rfl
  | cons a l ih =>
    simp only [List.insertionSort]
    rw [filter_orderedInsert, List.filter_cons]
    by_cases ha : a.2 = n
    · have hba : (a.2 == n) = true := by simpa using ha
      rw [if_pos ha, if_pos hba, ih]
    · have hba : ¬ ((a.2 == n) = true) := by simpa using ha
      rw [if_neg ha, if_neg hba, ih]

theorem mdLoop_rows_kept (r : List Str) :
    ∀ (lines : List Str) (rows : List (List Str)), r ∈ rows →
      ∃ rs, PTBlock.table rs ∈ mdLoop lines rows ∧ r ∈ rs := by
  intro lines
  induction lines with
  | nil =>
    intro rows hr
    refine ⟨rows, ?_, hr⟩
    have hne : rows.isEmpty = false := by
      cases rows with
      | nil => simp at hr
      | cons a t => rfl
    simp [mdLoop, flushTable, hne]
  | cons line rest ih =>
    intro rows hr
    simp only [mdLoop]
    by_cases hempty : (pyStrip line).isEmpty = true
    · rw [if_pos hempty]
      exact ih rows hr
    · rw [if_neg hempty]
      by_cases hpipe : '|' ∈ pyStrip line
      · rw [if_pos hpipe]
        exact ih _ (List.mem_append_left _ hr)
      · rw [if_neg hpipe]
        refine ⟨rows, ?_, hr⟩
        apply List.mem_append_left
        have hne : rows.isEmpty = false := by
          cases rows with
          | nil => simp at hr
          | cons a t => rfl
        simp [flushTable, hne]

theorem enhance_post_slug (env : EnhanceEnv) (post : PostMeta) (index : List IndexRec)
    (author : Author) (sl : Str)
    (h : resultSlug (enhance_post env post index author) = some sl) :
    ∃ base, sl = ensure_unique_slug index (slugify base) := by
  unfold enhance_post at h
  by_cases ht : (!truthyS post.title) = true
  · rw [if_pos ht] at h
    simp [resultSlug] at h
  · rw [if_neg ht] at h
    by_cases hs : (!truthyS post.slug) = true
    · refine ⟨post.title.getD [], ?_⟩
      rw [if_pos hs] at h
      simp only [resultSlug] at h
      split at h <;> split at h <;> simp_all
    · refine ⟨post.slug.getD [], ?_⟩
      rw [if_neg hs] at h
      simp only [resultSlug] at h
      split at h <;> split at h <;> simp_all

theorem goodSlugChar_shape (c : Char) (h : goodSlugChar c = true) :
    isPySpace c = false ∧ isUpperA c = false ∧ (isPyWord c = true ∨ c = '-') := by
  refine ⟨goodSlugChar_not_space c h, goodSlugChar_not_upper c h, ?_⟩
  simp only [goodSlugChar, Bool.or_eq_true, Bool.and_eq_true, beq_iff_eq] at h
  rcases h with ⟨hw, _⟩ | h45
  · left; exact hw
  · right
    apply char_eq_of_toNat
    rw [h45]
    rfl

/-- C2: slugify is idempotent: for every input string s, slugify applied to
slugify of s equals slugify of s. -/
theorem C2_slugify_idempotent (s : Str) : slugify (slugify s) = slugify s :=
  slugify_fixed s

/-- C10: every character of a slugify output is free of whitespace and of
uppercase ASCII letters, being a lowercased word character or a hyphen; and
every slug assigned by enhance_post, which is the slugified base plus an
optional numeric suffix, has the same shape. -/
theorem C10_slug_shape :
    (∀ (s : Str), ∀ c ∈ slugify s,
      isPySpace c = false ∧ isUpperA c = false ∧ (isPyWord c = true ∨ c = '-')) ∧
    (∀ (env : EnhanceEnv) (post : PostMeta) (index : List IndexRec) (author : Author)
      (sl : Str), resultSlug (enhance_post env post index author) = some sl →
      ∀ c ∈ sl, isPySpace c = false ∧ isUpperA c = false ∧ (isPyWord c = true ∨ c = '-')) := by
  constructor
  · intro s c hc
    exact goodSlugChar_shape c (slugify_chars s c hc)
  · intro env post index author sl h c hc
    rcases enhance_post_slug env post index author sl h with ⟨base, rfl⟩
    exact goodSlugChar_shape c
      (ensure_unique_slug_chars index (slugify base) (slugify_chars base) c hc)

set_option maxRecDepth 4000 in
/-- Witness for C10: the shape facts instantiated on a character of a
concrete slugify output and on a character of a concrete enriched slug. -/
theorem C10_slug_shape_witness :
    (isPySpace 'a' = false ∧ isUpperA 'a' = false ∧ (isPyWord 'a' = true ∨ 'a' = '-')) ∧
    (isPySpace 'h' = false ∧ isUpperA 'h' = false ∧ (isPyWord 'h' = true ∨ 'h' = '-')) :=
  ⟨C10_slug_shape.1 (str "A b") 'a' (by decide),
   C10_slug_shape.2 envFix { title := some (str "How Voice AI Handles Support") } [] AUTHOR
     (str "how-voice-ai-handles-support") (by decide) 'h' (by decide)⟩

set_option maxRecDepth 4000 in
/-- Counterexample for C1: against an index whose single entry stores the
empty slug, enriching a post whose title slugifies to the empty string
assigns the empty slug, which is present among the index entries slugs. -/
theorem C1_counterexample :
    resultSlug (enhance_post envFix { title := some (str "!") } [{ slug := some [] }] AUTHOR)
      = some [] ∧
    ({ slug := some [] } : IndexRec).slug = some [] :=
  ⟨by decide, rfl⟩

/-- C1 amended: for every post enriched against a fixed index, the slug in
the resulting metadata is not present among any existing index entries
non-empty slugs; and submitting the same title a second time against an
index already containing the slug how-voice-ai-handles-support yields
how-voice-ai-handles-support-2. -/
theorem C1_slug_unique :
    (∀ (env : EnhanceEnv) (post : PostMeta) (index : List IndexRec) (author : Author)
      (sl : Str), resultSlug (enhance_post env post index author) = some sl →
      ∀ p ∈ index, ∀ s, p.slug = some s → s ≠ [] → s ≠ sl) ∧
    resultSlug (enhance_post envFix { title := some (str "How Voice AI Handles Support") }
      [{ slug := some (str "how-voice-ai-handles-support") }] AUTHOR) =
      some (str "how-voice-ai-handles-support-2") := by
  constructor
  · intro env post index author sl h p hp s hps hne heq
    rcases enhance_post_slug env post index author sl h with ⟨base, rfl⟩
    have hmem : s ∈ truthySlugs index := by
      apply List.mem_filterMap.2
      exact ⟨p, hp, by simp [truthySlug, hps, hne]⟩
    rw [heq] at hmem
    exact ensure_unique_slug_fresh index (slugify base) hmem
  · decide

set_option maxRecDepth 4000 in
/-- Witness for C1: the uniqueness fact instantiated on the collision
scenario. -/
theorem C1_slug_unique_witness :
    str "how-voice-ai-handles-support" ≠ str "how-voice-ai-handles-support-2" :=
  C1_slug_unique.1 envFix { title := some (str "How Voice AI Handles Support") }
    [{ slug := some (str "how-voice-ai-handles-support") }] AUTHOR
    (str "how-voice-ai-handles-support-2") (by decide)
    { slug := some (str "how-voice-ai-handles-support") } (by decide)
    (str "how-voice-ai-handles-support") rfl (by decide)

set_option maxRecDepth 8000 in
/-- Counterexample for C3: on the stated end-to-end scenario the resulting
reading time is 1, not 2: the source computes the integer part of 300/200
with a floor of one. -/
theorem C3_counterexample :
    (enhance_post envFix c3post [] AUTHOR).toOption.map (fun r => r.meta.reading_time) =
      some (some 1) ∧
    (some (some 1) : Option (Option Nat)) ≠ some (some 2) := by
  refine ⟨by decide, by decide⟩

set_option maxRecDepth 8000 in
/-- C3 amended: enriching the post with the stated title, no slug, a
300-word body, the stated category and no images against an empty index
yields the slug how-voice-ai-handles-support, reading time 1, exactly 3 FAQ
entries, a non-empty keyword list of at most 6 entries, and an Article
structured-data object whose headline equals the title. -/
theorem C3_end_to_end :
    (enhance_post envFix c3post [] AUTHOR).toOption.map
      (fun r => (r.meta.slug, r.meta.reading_time, (r.meta.faqs.getD []).length,
        !(r.meta.keywords.getD []).isEmpty && decide ((r.meta.keywords.getD []).length ≤ 6),
        r.jsonld.article.headline)) =
      some (some (str "how-voice-ai-handles-support"), some 1, 3, true,
        str "How Voice AI Handles Support") := by
  decide

/-- C4: the converter maps the given four-line input to exactly a level-2
heading with the number prefix retained, one table block with the two rows,
and a paragraph; and for every input, table rows still accumulated when the
input ends are emitted as a final table block with no rows lost. -/
theorem C4_text_block_converter :
    markdown_to_portable_text (str "1. Intro\n| A | B |\n| 1 | 2 |\nSome text") =
      [PTBlock.block (str "h2") (str "1. Intro"),
       PTBlock.table [[str "A", str "B"], [str "1", str "2"]],
       PTBlock.block (str "normal") (str "Some text")] ∧
    (∀ (lines : List Str) (rows : List (List Str)) (r : List Str), r ∈ rows →
      ∃ rs, PTBlock.table rs ∈ mdLoop lines rows ∧ r ∈ rs) :=
  ⟨by decide, fun lines rows r hr => mdLoop_rows_kept r lines rows hr⟩

/-- Witness for C4: the no-rows-lost fact instantiated on a pending row
still accumulated when the input ends. -/
theorem C4_text_block_converter_witness :
    ∃ rs, PTBlock.table rs ∈ mdLoop [] [[str "x"]] ∧ [str "x"] ∈ rs :=
  C4_text_block_converter.2 [] [[str "x"]] [str "x"] (by decide)

/-- C5: the keyword extractor returns at most 6 keywords with no
duplicates; the result equals the spec-side phase description, title terms
first, then body tokens of the stably descending-count sorted frequency
table, then bigrams; the sorted frequency table is sorted by descending
count, equal counts keep first-occurrence order, and the frequency table
itself lists the distinct long body tokens in first-occurrence order with
their occurrence counts; identical inputs yield identical output by
functionality. -/
theorem C5_keyword_extractor (title content : Str) :
    (extract_keyword_candidates title content 6).length ≤ 6 ∧
    (extract_keyword_candidates title content 6).Nodup ∧
    extract_keyword_candidates title content 6 = keywordSpecList title content 6 ∧
    List.Sorted byCountGE (sortedFreq content) ∧
    (∀ n, (sortedFreq content).filter (fun p => p.2 == n) =
      (freqList content).filter (fun p => p.2 == n)) ∧
    freqList content = (dedupAppend [] (longTokens content)).map
      (fun u => (u, List.count u (longTokens content))) := by
  have hspec := extract_keyword_candidates_eq_spec title content 6 (by omega)
  refine ⟨?_, ?_, hspec, ?_, ?_, freqList_eq content⟩
  · rw [hspec]
    exact List.length_take_le _ _
  · rw [hspec]
    unfold keywordSpecList
    exact List.Nodup.sublist (List.take_sublist _ _)
      (nodup_dedupAppend _ _ (nodup_dedupAppend _ _ (nodup_dedupAppend _ _ List.nodup_nil)))
  · exact List.sorted_insertionSort byCountGE (freqList content)
  · intro n
    exact filter_insertionSort n (freqList content)

set_option maxRecDepth 40000 in
/-- Counterexample for C6: with a 200-character first keyword the meta
description is 204 characters long, beyond the 170-character bound of the
claim, so the bound does not hold for every title, body and keyword list. -/
theorem C6_counterexample :
    ¬ ((generate_meta_description (str "x") [] [List.replicate 200 'a']).length ≤ 170) := by
  decide

/-- C6 amended: for every title, body and keyword list, the meta
description is at most 161 characters plus the length of the primary
keyword (the first keyword, or the title when there are none); in
particular the bound does not depend on the body length. -/
theorem C6_meta_description_bound (title content : Str) (keywords : List Str) :
    (generate_meta_description title content keywords).length ≤
      (match keywords with | k :: _ => k.length | [] => title.length) + 161 := by
  unfold generate_meta_description
  have hst := short_summary_length title 155
  have hsc := short_summary_length content 155
  cases keywords with
  | nil =>
    dsimp only
    split <;> split <;>
      (try rw [List.length_append, List.length_append, length_pyTitle]) <;>
      (have h2 : (str " — ").length = 3 := rfl
       omega)
  | cons k ks =>
    dsimp only
    have h3 : (replaceDash k).length = k.length := List.length_map _ _
    split <;> split <;>
      (try rw [List.length_append, List.length_append, length_pyTitle]) <;>
      (have h2 : (str " — ").length = 3 := rfl
       omega)

/-- Counterexample for C7: for a 60-character title without spaces or
colons and no keywords, the candidate exceeds 60 characters and the
truncated fallback is 80 characters long, so the returned string does not
fit within the 60-character limit. -/
theorem C7_counterexample :
    ¬ ((generate_meta_title (List.replicate 60 'a') [] 60).length ≤ 60) := by
  decide

/-- C7 amended: the meta title is the title-cased primary keyword (first
keyword, or the pre-colon title portion when there are none) followed by
the organization suffix; when that candidate exceeds 60 characters, the
returned string instead has the title portion truncated to at most 59
characters (ellipsis included) and still ends with the organization
suffix, though the overall result may exceed 60 characters. -/
theorem C7_meta_title (title : Str) (keywords : List Str) :
    (str " | " ++ ORG_NAME) <:+ generate_meta_title title keywords 60 ∧
    generate_meta_title title keywords 60 =
      (if (pyTitle (match keywords with | k :: _ => k | [] => takeBeforeColon title) ++
          str " | " ++ ORG_NAME).length ≤ 60
       then pyTitle (match keywords with | k :: _ => k | [] => takeBeforeColon title) ++
          str " | " ++ ORG_NAME
       else (cutLastWord ((takeBeforeColon title).take 56) ++ str "...") ++
          str " | " ++ ORG_NAME) ∧
    (cutLastWord ((takeBeforeColon title).take 56) ++ str "...").length ≤ 59 := by
  have heq : generate_meta_title title keywords 60 =
      (if (pyTitle (match keywords with | k :: _ => k | [] => takeBeforeColon title) ++
          str " | " ++ ORG_NAME).length ≤ 60
       then pyTitle (match keywords with | k :: _ => k | [] => takeBeforeColon title) ++
          str " | " ++ ORG_NAME
       else (cutLastWord ((takeBeforeColon title).take 56) ++ str "...") ++
          str " | " ++ ORG_NAME) := by
    unfold generate_meta_title
    dsimp only
    by_cases h : (pyTitle (match keywords with | k :: _ => k | [] => takeBeforeColon title) ++
        str " | " ++ ORG_NAME).length ≤ 60
    · rw [if_neg (by omega), if_pos h]
    · rw [if_pos (by omega), if_neg h]
  refine ⟨?_, heq, ?_⟩
  · rw [heq]
    split
    · exact ⟨_, (List.append_assoc _ _ _).symm⟩
    · exact ⟨_, (List.append_assoc _ _ _).symm⟩
  · rw [List.length_append]
    have h1 := length_cutLastWord_le ((takeBeforeColon title).take 56)
    have h2 := List.length_take_le 56 (takeBeforeColon title)
    have h3 : (str "...").length = 3 := rfl
    omega

/-- Counterexample for C8: when the index file exists but reading it fails,
load_index propagates the raised error instead of returning the empty
sequence, so corruption by unreadability is not swallowed. -/
theorem C8_counterexample :
    load_index IndexFileState.readError = Except.error PyError.osError ∧
    load_index IndexFileState.readError ≠ Except.ok [] :=
  ⟨rfl, fun h => nomatch h⟩

/-- C8 amended: load_index returns the empty sequence when no persisted
index exists or the persisted state fails JSON decoding (that corruption is
swallowed), returns the persisted records on success, and raises only when
reading the existing file itself fails. -/
theorem C8_load_index (st : IndexFileState) :
    (st ≠ IndexFileState.readError → ∃ l, load_index st = Except.ok l) ∧
    load_index IndexFileState.missing = Except.ok [] ∧
    load_index IndexFileState.decodeError = Except.ok [] ∧
    (∀ records, load_index (IndexFileState.parsed records) = Except.ok records) ∧
    load_index IndexFileState.readError = Except.error PyError.osError := by
  refine ⟨?_, rfl, rfl, fun _ => rfl, rfl⟩
  intro h
  cases st with
  | missing => exact ⟨[], rfl⟩
  | readError => exact absurd rfl h
  | decodeError => exact ⟨[], rfl⟩
  | parsed records => exact ⟨records, rfl⟩

/-- Witness for C8: the no-raise fact instantiated on the missing-file
state. -/
theorem C8_load_index_witness :
    (∃ l, load_index IndexFileState.missing = Except.ok l) ∧
    load_index IndexFileState.missing = Except.ok [] :=
  ⟨(C8_load_index IndexFileState.missing).1 (by decide),
   (C8_load_index IndexFileState.missing).2.1⟩

theorem getPost_updPost (h : Heap) (a : Nat) (f : PostMeta → PostMeta) :
    getPost (updPost h a f) a = f (getPost h a) := by
  simp [updPost, hset, getPost]

theorem getPost_halloc (h : Heap) (p : PostMeta) :
    getPost (halloc h (HObj.postObj p)).1 (halloc h (HObj.postObj p)).2 = p := by
  simp [halloc, getPost]

/-- The heap-level model computes the same result as the pure enhance_post
applied to the objects stored at the two addresses. -/
theorem enhance_post_st_agrees (env : EnhanceEnv) (author : Author) (h0 : Heap)
    (pA iA : Nat) :
    (enhance_post_st env author h0 pA iA).1 =
      enhance_post env (getPost h0 pA) (getIndex h0 iA) author := by
  unfold enhance_post_st enhance_post
  dsimp only
  simp only [getPost_updPost, getPost_halloc]
  rw [apply_ite Prod.fst]

/-- C9: enhance_post is side-effect-free with respect to its arguments:
every dict write of the call targets the freshly allocated copy of the post
dict, so after the call the input post dict and the index list are exactly
as before, whatever the outcome. -/
theorem C9_enhance_post_frame (env : EnhanceEnv) (author : Author) (h0 : Heap)
    (pA iA : Nat) (hp : pA < h0.next) (hi : iA < h0.next) :
    (enhance_post_st env author h0 pA iA).2.mem pA = h0.mem pA ∧
    (enhance_post_st env author h0 pA iA).2.mem iA = h0.mem iA := by
  have hpne : pA ≠ h0.next := by omega
  have hine : iA ≠ h0.next := by omega
  unfold enhance_post_st
  dsimp only
  split <;>
    simp [updPost, hset, halloc, getPost, getIndex, hpne, hine]

/-- Witness for C9: the frame property instantiated on a concrete
two-object heap holding a post dict and an empty index list. -/
theorem C9_enhance_post_frame_witness :
    (enhance_post_st envFix AUTHOR heap2 0 1).2.mem 0 = heap2.mem 0 ∧
    (enhance_post_st envFix AUTHOR heap2 0 1).2.mem 1 = heap2.mem 1 :=
  C9_enhance_post_frame envFix AUTHOR heap2 0 1 (by decide) (by decide)

end Autoblog
